import Mathlib

/-!
Verification of the analytics core of the Thunderbird-Metrics scripts
(`src/addons.py`, `src/bugzilla.py`, `src/github.py`): calendar-period
bucketing, version-range compatibility matching, and the duplicate-relation
level rollup.  Python functions are embedded shallowly: dictionaries become
association lists, `datetime.date` values become explicit
year/month/day records on the proleptic Gregorian calendar, fallible code
returns `Option`/`Except`, and machine behaviour such as `TypeError` on
`None <= tuple` is made explicit in the return type.

Years are modelled as unbounded naturals (`1 ≤ year`); Python's `datetime`
caps years at 9999 (`MAXYEAR`), a bound never approached by the program's
1975–2045 report ranges.
-/

namespace TBMetrics

/-! ### Calendar: dates, leap years and day numbers

Embeds the semantics of `datetime.date` as used by the scripts:
construction, ordering, `timedelta` day arithmetic, `weekday()` and
`isocalendar()`.  Day numbers follow CPython's `date.toordinal` (day 1 =
0001-01-01, a Monday). -/

/-- A proleptic-Gregorian calendar date, the embedding of `datetime.date`
(the scripts only ever use midnight-UTC datetimes, so the time part is
irrelevant). -/
structure Date where
  year : Nat
  month : Nat
  day : Nat
deriving DecidableEq, Repr

/-- Gregorian leap-year rule (CPython `datetime._is_leap`). -/
def isLeap (y : Nat) : Bool :=
  y % 4 = 0 && (y % 100 ≠ 0 || y % 400 = 0)

/-- Length of a month (CPython `datetime._days_in_month`). -/
def daysInMonth (y m : Nat) : Nat :=
  if m = 2 then (if isLeap y then 29 else 28)
  else if m = 4 ∨ m = 6 ∨ m = 9 ∨ m = 11 then 30
  else 31

/-- Days in the months strictly before month `m` of year `y`
(CPython `datetime._days_before_month`). -/
def daysBeforeMonth (y m : Nat) : Nat :=
  (if m > 1 then 0 else 0) +
  (if m > 1 then 31 else 0) +
  (if m > 2 then (if isLeap y then 29 else 28) else 0) +
  (if m > 3 then 31 else 0) +
  (if m > 4 then 30 else 0) +
  (if m > 5 then 31 else 0) +
  (if m > 6 then 30 else 0) +
  (if m > 7 then 31 else 0) +
  (if m > 8 then 31 else 0) +
  (if m > 9 then 30 else 0) +
  (if m > 10 then 31 else 0) +
  (if m > 11 then 30 else 0)

/-- Number of leap years among years `1 .. n` (CPython `_days_before_year`
helper term). -/
def leapsBefore (n : Nat) : Nat :=
  n / 4 - n / 100 + n / 400

/-- Days before January 1 of year `y` (CPython `datetime._days_before_year`). -/
def daysBeforeYear (y : Nat) : Nat :=
  365 * (y - 1) + leapsBefore (y - 1)

/-- CPython `date.toordinal`: day number with day 1 = 0001-01-01. -/
def toRD (d : Date) : Nat :=
  daysBeforeYear d.year + daysBeforeMonth d.year d.month + d.day

/-- Validity of a date record: the constraints `datetime.date` enforces on
construction (years unbounded above, see the file header). -/
def ValidDate (d : Date) : Prop :=
  1 ≤ d.year ∧ 1 ≤ d.month ∧ d.month ≤ 12 ∧ 1 ≤ d.day ∧ d.day ≤ daysInMonth d.year d.month

instance (d : Date) : Decidable (ValidDate d) := by
  unfold ValidDate; infer_instance

/-- Python `date.weekday()`: Monday = 0 … Sunday = 6.  Ordinal day 1
(0001-01-01) is a Monday. -/
def weekday (d : Date) : Nat :=
  (toRD d - 1) % 7

/-- Calendar successor of a date (the semantics of `+ timedelta(days=1)`). -/
def nextDay (d : Date) : Date :=
  if d.day < daysInMonth d.year d.month then ⟨d.year, d.month, d.day + 1⟩
  else if d.month < 12 then ⟨d.year, d.month + 1, 1⟩
  else ⟨d.year + 1, 1, 1⟩

/-- Calendar predecessor of a date (the semantics of `- timedelta(days=1)`). -/
def prevDay (d : Date) : Date :=
  if 1 < d.day then ⟨d.year, d.month, d.day - 1⟩
  else if 1 < d.month then ⟨d.year, d.month - 1, daysInMonth d.year (d.month - 1)⟩
  else ⟨d.year - 1, 12, 31⟩

/-- `d + timedelta(days=n)`. -/
def addDays (d : Date) (n : Nat) : Date :=
  Nat.rec d (fun _ ih => nextDay ih) n

/-- `d - timedelta(days=n)`. -/
def subDays (d : Date) (n : Nat) : Date :=
  Nat.rec d (fun _ ih => prevDay ih) n

/-- Python `datetime` comparison `a < b`, which for the midnight dates used
here is lexicographic on (year, month, day). -/
def dlt (a b : Date) : Prop :=
  a.year < b.year ∨ (a.year = b.year ∧
    (a.month < b.month ∨ (a.month = b.month ∧ a.day < b.day)))

instance (a b : Date) : Decidable (dlt a b) := by
  unfold dlt; infer_instance

theorem isLeap_iff {y : Nat} :
    isLeap y = true ↔ (y % 4 = 0 ∧ (y % 100 ≠ 0 ∨ y % 400 = 0)) := by
  unfold isLeap
  simp

theorem daysInMonth_pos (y m : Nat) : 1 ≤ daysInMonth y m := by
  unfold daysInMonth
  split
  · split <;> omega
  · split <;> omega

theorem daysInMonth_le (y m : Nat) : daysInMonth y m ≤ 31 := by
  unfold daysInMonth
  split
  · split <;> omega
  · split <;> omega

theorem validDate_nextDay {d : Date} (h : ValidDate d) : ValidDate (nextDay d) := by
  obtain ⟨h1, h2, h3, h4, h5⟩ := h
  have hp1 := daysInMonth_pos d.year (d.month + 1)
  have hp2 := daysInMonth_pos (d.year + 1) 1
  unfold nextDay
  split
  · exact ⟨h1, h2, h3, by show 1 ≤ d.day + 1; omega,
      by show d.day + 1 ≤ daysInMonth d.year d.month; omega⟩
  · split
    · exact ⟨h1, by show 1 ≤ d.month + 1; omega, by show d.month + 1 ≤ 12; omega,
        le_refl 1, hp1⟩
    · exact ⟨by show 1 ≤ d.year + 1; omega, le_refl 1, by norm_num, le_refl 1, hp2⟩

theorem daysBeforeMonth_succ {y m : Nat} (h1 : 1 ≤ m) (h2 : m ≤ 11) :
    daysBeforeMonth y (m + 1) = daysBeforeMonth y m + daysInMonth y m := by
  unfold daysBeforeMonth daysInMonth
  interval_cases m <;> norm_num <;> split <;> omega

theorem daysBeforeYear_succ {y : Nat} (h : 1 ≤ y) :
    daysBeforeYear (y + 1) = daysBeforeYear y + (if isLeap y then 366 else 365) := by
  have h4 : y / 4 = (y - 1) / 4 + (if y % 4 = 0 then 1 else 0) := by
    split <;> omega
  have h100 : y / 100 = (y - 1) / 100 + (if y % 100 = 0 then 1 else 0) := by
    split <;> omega
  have h400 : y / 400 = (y - 1) / 400 + (if y % 400 = 0 then 1 else 0) := by
    split <;> omega
  have hle1 : (y - 1) / 100 ≤ (y - 1) / 4 := by omega
  have hle2 : y / 100 ≤ y / 4 := by omega
  unfold daysBeforeYear leapsBefore
  have hy : y + 1 - 1 = y := by omega
  rw [hy]
  by_cases hL : isLeap y = true
  · rw [if_pos hL]
    rw [isLeap_iff] at hL
    split at h4 <;> split at h100 <;> split at h400 <;> omega
  · rw [if_neg hL]
    rw [isLeap_iff] at hL
    split at h4 <;> split at h100 <;> split at h400 <;> omega

theorem daysBeforeMonth_twelve {y : Nat} :
    daysBeforeMonth y 12 = 334 + (if isLeap y then 1 else 0) := by
  unfold daysBeforeMonth
  norm_num
  split <;> omega

theorem daysBeforeMonth_one {y : Nat} : daysBeforeMonth y 1 = 0 := by
  unfold daysBeforeMonth
  norm_num

theorem toRD_nextDay {d : Date} (h : ValidDate d) : toRD (nextDay d) = toRD d + 1 := by
  obtain ⟨h1, h2, h3, h4, h5⟩ := h
  unfold nextDay
  split
  · show toRD ⟨d.year, d.month, d.day + 1⟩ = toRD d + 1
    unfold toRD
    dsimp only
    omega
  · split
    · show toRD ⟨d.year, d.month + 1, 1⟩ = toRD d + 1
      have hsucc := daysBeforeMonth_succ (y := d.year) (m := d.month) h2 (by omega)
      have hd : d.day = daysInMonth d.year d.month := by omega
      unfold toRD
      dsimp only
      omega
    · show toRD ⟨d.year + 1, 1, 1⟩ = toRD d + 1
      have hm : d.month = 12 := by omega
      have hdim : daysInMonth d.year 12 = 31 := by unfold daysInMonth; norm_num
      have hdim2 : daysInMonth d.year d.month = 31 := by rw [hm]; exact hdim
      have hd : d.day = 31 := by omega
      have hy := daysBeforeYear_succ (y := d.year) h1
      have hlast := daysBeforeMonth_twelve (y := d.year)
      have h12 : daysBeforeMonth (d.year + 1) 1 = 0 := daysBeforeMonth_one
      unfold toRD
      dsimp only
      rw [hm, hd, h12, hlast, hy]
      split <;> omega

theorem daysBeforeYear_mono {y y' : Nat} (h0 : 1 ≤ y) (h : y ≤ y') :
    daysBeforeYear y ≤ daysBeforeYear y' := by
  induction y' with
  | zero => omega
  | succ n ih =>
    rcases Nat.lt_or_ge y (n + 1) with hy | hy
    · have hn : 1 ≤ n := by omega
      have hs := daysBeforeYear_succ (y := n) hn
      have hi := ih (by omega)
      split at hs <;> omega
    · have he : y = n + 1 := by omega
      rw [he]

theorem daysBeforeMonth_mono {y m m' : Nat} (h1 : 1 ≤ m) (h2 : m ≤ m') (h3 : m' ≤ 12) :
    daysBeforeMonth y m ≤ daysBeforeMonth y m' := by
  induction m' with
  | zero => omega
  | succ n ih =>
    rcases Nat.lt_or_ge m (n + 1) with hy | hy
    · have hn := daysBeforeMonth_succ (y := y) (m := n) (by omega) (by omega)
      have hi := ih (by omega) (by omega)
      have hp := daysInMonth_pos y n
      omega
    · have he : m = n + 1 := by omega
      rw [he]

theorem toRD_le_next_year {d : Date} (h : ValidDate d) :
    toRD d ≤ daysBeforeYear (d.year + 1) := by
  obtain ⟨h1, h2, h3, h4, h5⟩ := h
  have hmono := @daysBeforeMonth_mono d.year d.month 12 h2 h3 (le_refl 12)
  have h12 := daysBeforeMonth_twelve (y := d.year)
  have hsucc := daysBeforeYear_succ (y := d.year) h1
  have hle := daysInMonth_le d.year d.month
  unfold toRD
  by_cases hL : isLeap d.year = true
  · rw [if_pos hL] at h12 hsucc
    omega
  · rw [if_neg hL] at h12 hsucc
    omega

theorem toRD_lt_of_dlt {a b : Date} (ha : ValidDate a) (hb : ValidDate b)
    (h : dlt a b) : toRD a < toRD b := by
  obtain ⟨ha1, ha2, ha3, ha4, ha5⟩ := ha
  obtain ⟨hb1, hb2, hb3, hb4, hb5⟩ := hb
  rcases h with hy | ⟨hy, hm | ⟨hm, hd⟩⟩
  · have h1 : toRD a ≤ daysBeforeYear (a.year + 1) :=
      toRD_le_next_year ⟨ha1, ha2, ha3, ha4, ha5⟩
    have h2 : daysBeforeYear (a.year + 1) ≤ daysBeforeYear b.year :=
      daysBeforeYear_mono (by omega) (by omega)
    have h3 : 0 ≤ daysBeforeMonth b.year b.month := Nat.zero_le _
    unfold toRD at h1 ⊢
    omega
  · have hsucc := daysBeforeMonth_succ (y := a.year) (m := a.month) ha2 (by omega)
    have hmono := @daysBeforeMonth_mono a.year (a.month + 1) b.month
      (by omega) (by omega) hb3
    rw [hy] at hsucc hmono ha5
    unfold toRD
    rw [hy]
    omega
  · unfold toRD
    rw [hy, hm]
    omega

theorem dlt_iff_toRD_lt {a b : Date} (ha : ValidDate a) (hb : ValidDate b) :
    dlt a b ↔ toRD a < toRD b := by
  constructor
  · exact toRD_lt_of_dlt ha hb
  · intro h
    by_contra hcon
    rcases Nat.lt_trichotomy a.year b.year with hy | hy | hy
    · exact hcon (Or.inl hy)
    · rcases Nat.lt_trichotomy a.month b.month with hm | hm | hm
      · exact hcon (Or.inr ⟨hy, Or.inl hm⟩)
      · rcases Nat.lt_trichotomy a.day b.day with hd | hd | hd
        · exact hcon (Or.inr ⟨hy, Or.inr ⟨hm, hd⟩⟩)
        · have he : a = b := by
            cases a; cases b; simp_all
          rw [he] at h
          omega
        · have := toRD_lt_of_dlt hb ha (Or.inr ⟨hy.symm, Or.inr ⟨hm.symm, hd⟩⟩)
          omega
      · have := toRD_lt_of_dlt hb ha (Or.inr ⟨hy.symm, Or.inl hm⟩)
        omega
    · have := toRD_lt_of_dlt hb ha (Or.inl hy)
      omega

theorem toRD_inj {a b : Date} (ha : ValidDate a) (hb : ValidDate b)
    (h : toRD a = toRD b) : a = b := by
  by_contra hne
  rcases Nat.lt_trichotomy a.year b.year with hy | hy | hy
  · have := toRD_lt_of_dlt ha hb (Or.inl hy)
    omega
  · rcases Nat.lt_trichotomy a.month b.month with hm | hm | hm
    · have := toRD_lt_of_dlt ha hb (Or.inr ⟨hy, Or.inl hm⟩)
      omega
    · rcases Nat.lt_trichotomy a.day b.day with hd | hd | hd
      · have := toRD_lt_of_dlt ha hb (Or.inr ⟨hy, Or.inr ⟨hm, hd⟩⟩)
        omega
      · exact hne (by cases a; cases b; simp_all)
      · have := toRD_lt_of_dlt hb ha (Or.inr ⟨hy.symm, Or.inr ⟨hm.symm, hd⟩⟩)
        omega
    · have := toRD_lt_of_dlt hb ha (Or.inr ⟨hy.symm, Or.inl hm⟩)
      omega
  · have := toRD_lt_of_dlt hb ha (Or.inl hy)
    omega

theorem toRD_pos {d : Date} (h : ValidDate d) : 1 ≤ toRD d := by
  obtain ⟨h1, h2, h3, h4, h5⟩ := h
  unfold toRD
  omega

theorem daysBeforeYear_one : daysBeforeYear 1 = 0 := by
  unfold daysBeforeYear leapsBefore
  norm_num

theorem nextDay_prevDay {d : Date} (h : ValidDate d) (h2 : 2 ≤ toRD d) :
    nextDay (prevDay d) = d := by
  obtain ⟨hv1, hv2, hv3, hv4, hv5⟩ := h
  unfold prevDay
  split
  · show nextDay ⟨d.year, d.month, d.day - 1⟩ = d
    unfold nextDay
    dsimp only
    rw [if_pos (by omega)]
    cases d
    simp_all <;> omega
  · split
    · show nextDay ⟨d.year, d.month - 1, daysInMonth d.year (d.month - 1)⟩ = d
      unfold nextDay
      dsimp only
      rw [if_neg (by omega), if_pos (by omega)]
      cases d
      simp_all <;> omega
    · show nextDay ⟨d.year - 1, 12, 31⟩ = d
      have hm : d.month = 1 := by omega
      have hd : d.day = 1 := by omega
      have hy : 2 ≤ d.year := by
        by_contra hcon
        have hy1 : d.year = 1 := by omega
        have : toRD d = 1 := by
          unfold toRD
          rw [hy1, hm, hd, daysBeforeYear_one, daysBeforeMonth_one]
        omega
      have hdim : daysInMonth (d.year - 1) 12 = 31 := by unfold daysInMonth; norm_num
      unfold nextDay
      dsimp only
      rw [hdim, if_neg (by omega), if_neg (by omega)]
      cases d
      simp_all <;> omega

theorem validDate_prevDay {d : Date} (h : ValidDate d) (h2 : 2 ≤ toRD d) :
    ValidDate (prevDay d) := by
  obtain ⟨hv1, hv2, hv3, hv4, hv5⟩ := h
  unfold prevDay
  split
  · exact ⟨hv1, hv2, hv3, by show 1 ≤ d.day - 1; omega,
      by show d.day - 1 ≤ daysInMonth d.year d.month; omega⟩
  · split
    · exact ⟨hv1, by show 1 ≤ d.month - 1; omega, by show d.month - 1 ≤ 12; omega,
        daysInMonth_pos _ _, le_refl _⟩
    · have hm : d.month = 1 := by omega
      have hd : d.day = 1 := by omega
      have hy : 2 ≤ d.year := by
        by_contra hcon
        have hy1 : d.year = 1 := by omega
        have : toRD d = 1 := by
          unfold toRD
          rw [hy1, hm, hd, daysBeforeYear_one, daysBeforeMonth_one]
        omega
      have hdim : daysInMonth (d.year - 1) 12 = 31 := by unfold daysInMonth; norm_num
      exact ⟨by show 1 ≤ d.year - 1; omega, by norm_num, by norm_num,
        by show (1 : Nat) ≤ 31; norm_num, by show (31 : Nat) ≤ _; rw [hdim]⟩

theorem toRD_prevDay {d : Date} (h : ValidDate d) (h2 : 2 ≤ toRD d) :
    toRD (prevDay d) + 1 = toRD d := by
  have hv := validDate_prevDay h h2
  have := toRD_nextDay hv
  rw [nextDay_prevDay h h2] at this
  omega

theorem addDays_succ (d : Date) (n : Nat) : addDays d (n + 1) = nextDay (addDays d n) := rfl

theorem addDays_zero (d : Date) : addDays d 0 = d := rfl

theorem subDays_succ (d : Date) (n : Nat) : subDays d (n + 1) = prevDay (subDays d n) := rfl

theorem validDate_addDays {d : Date} (h : ValidDate d) (n : Nat) :
    ValidDate (addDays d n) := by
  induction n with
  | zero => exact h
  | succ k ih => exact validDate_nextDay ih

theorem toRD_addDays {d : Date} (h : ValidDate d) (n : Nat) :
    toRD (addDays d n) = toRD d + n := by
  induction n with
  | zero => rfl
  | succ k ih =>
    rw [addDays_succ, toRD_nextDay (validDate_addDays h k), ih]
    omega

theorem addDays_add (d : Date) (a b : Nat) :
    addDays (addDays d a) b = addDays d (a + b) := by
  induction b with
  | zero => rfl
  | succ k ih =>
    rw [addDays_succ, ih, ← addDays_succ, Nat.add_assoc]

theorem validDate_subDays {d : Date} (h : ValidDate d) {n : Nat} (hn : n + 1 ≤ toRD d) :
    ValidDate (subDays d n) ∧ toRD (subDays d n) + n = toRD d := by
  induction n with
  | zero => exact ⟨h, rfl⟩
  | succ k ih =>
    obtain ⟨ihv, ihr⟩ := ih (by omega)
    have h2 : 2 ≤ toRD (subDays d k) := by omega
    refine ⟨validDate_prevDay ihv h2, ?_⟩
    rw [subDays_succ]
    have := toRD_prevDay ihv h2
    omega

theorem addDays_nextDay {d : Date} (n : Nat) :
    addDays (nextDay d) n = nextDay (addDays d n) := by
  induction n with
  | zero => rfl
  | succ k ih => rw [addDays_succ, ih, ← addDays_succ]

theorem addDays_subDays {d : Date} (h : ValidDate d) {n : Nat} (hn : n + 1 ≤ toRD d) :
    addDays (subDays d n) n = d := by
  induction n with
  | zero => rfl
  | succ k ih =>
    obtain ⟨ihv, ihr⟩ := validDate_subDays h (n := k) (by omega)
    have h2 : 2 ≤ toRD (subDays d k) := by omega
    have hshift : addDays (prevDay (subDays d k)) (k + 1)
        = addDays (nextDay (prevDay (subDays d k))) k := by
      rw [addDays_nextDay, addDays_succ]
    rw [subDays_succ, hshift, nextDay_prevDay ihv h2, ih (by omega)]

theorem addDays_reach {a b : Date} (ha : ValidDate a) (hb : ValidDate b)
    (h : toRD a ≤ toRD b) : b = addDays a (toRD b - toRD a) := by
  obtain ⟨k, hk⟩ : ∃ k, toRD b = toRD a + k := ⟨toRD b - toRD a, by omega⟩
  have : b = addDays a k := by
    clear h
    induction k generalizing b with
    | zero => exact toRD_inj hb ha (by omega) ▸ rfl
    | succ j ih =>
      have h2 : 2 ≤ toRD b := by
        have := toRD_pos ha
        omega
      have hvp := validDate_prevDay hb h2
      have hrp := toRD_prevDay hb h2
      have := ih hvp (by omega)
      rw [addDays_succ, ← this, nextDay_prevDay hb h2]
  rw [hk]
  have hsub : toRD a + k - toRD a = k := by omega
  rw [hsub]
  exact this

theorem prevDay_nextDay {d : Date} (h : ValidDate d) : prevDay (nextDay d) = d := by
  obtain ⟨h1, h2, h3, h4, h5⟩ := h
  unfold nextDay
  split
  · show prevDay ⟨d.year, d.month, d.day + 1⟩ = d
    unfold prevDay
    dsimp only
    rw [if_pos (by omega)]
    cases d
    simp_all
  · split
    · show prevDay ⟨d.year, d.month + 1, 1⟩ = d
      unfold prevDay
      dsimp only
      rw [if_neg (by omega), if_pos (by omega)]
      cases d
      simp_all
      omega
    · show prevDay ⟨d.year + 1, 1, 1⟩ = d
      have hm : d.month = 12 := by omega
      have hdim : daysInMonth d.year 12 = 31 := by unfold daysInMonth; norm_num
      have hdim2 : daysInMonth d.year d.month = 31 := by rw [hm]; exact hdim
      unfold prevDay
      dsimp only
      rw [if_neg (by omega), if_neg (by omega)]
      cases d
      simp_all <;> omega

theorem year_nextDay_ge (d : Date) : d.year ≤ (nextDay d).year := by
  unfold nextDay
  split
  · exact le_refl _
  · split
    · exact le_refl _
    · show d.year ≤ d.year + 1
      omega

theorem year_addDays_ge (d : Date) (n : Nat) : d.year ≤ (addDays d n).year := by
  induction n with
  | zero => exact le_refl _
  | succ k ih => exact le_trans ih (year_nextDay_ge _)

theorem subDays_addDays {x : Date} (h : ValidDate x) {j n : Nat} (hj : j ≤ n) :
    subDays (addDays x n) j = addDays x (n - j) := by
  induction j with
  | zero => rfl
  | succ k ih =>
    rw [subDays_succ, ih (by omega)]
    have hk : n - k = (n - (k + 1)) + 1 := by omega
    rw [hk, addDays_succ, prevDay_nextDay (validDate_addDays h _)]

/-! ### ISO calendar

Embedding of `date.isocalendar()` (used by `get_period`/`output_period` for
week granularity) via the ISO-8601 rule implemented by CPython: the ISO
year/week of `d` are the calendar year of the Thursday of `d`'s Monday-based
week, and the index of that Thursday among the Thursdays of that year. -/

/-- The Thursday of the Mon–Sun week containing `d`. -/
def thursdayOf (d : Date) : Date :=
  if weekday d ≤ 3 then addDays d (3 - weekday d) else subDays d (weekday d - 3)

/-- First component of Python `date.isocalendar()`. -/
def isoYear (d : Date) : Nat :=
  (thursdayOf d).year

/-- Second component of Python `date.isocalendar()`. -/
def isoWeek (d : Date) : Nat :=
  (toRD (thursdayOf d) - toRD ⟨(thursdayOf d).year, 1, 1⟩) / 7 + 1

theorem weekday_lt (d : Date) : weekday d < 7 := by
  unfold weekday
  omega

theorem weekday_addDays {d : Date} (h : ValidDate d) (k : Nat) :
    weekday (addDays d k) = (weekday d + k) % 7 := by
  have hrd := toRD_addDays h k
  have hpos := toRD_pos h
  unfold weekday
  rw [hrd]
  omega

theorem thursdayOf_monday {m : Date} (hw : weekday m = 0) :
    thursdayOf m = addDays m 3 := by
  unfold thursdayOf
  rw [hw]
  norm_num

theorem thursdayOf_in_week {m : Date} (hv : ValidDate m) (hw : weekday m = 0)
    {k : Nat} (hk : k ≤ 6) : thursdayOf (addDays m k) = addDays m 3 := by
  have hwk : weekday (addDays m k) = k := by
    rw [weekday_addDays hv k, hw]
    omega
  unfold thursdayOf
  rw [hwk]
  by_cases h3 : k ≤ 3
  · rw [if_pos h3, addDays_add]
    congr 1
    omega
  · rw [if_neg (by omega), subDays_addDays hv (by omega)]
    congr 1
    omega

theorem iso_const_on_week {m : Date} (hv : ValidDate m) (hw : weekday m = 0)
    {k : Nat} (hk : k ≤ 6) :
    isoYear (addDays m k) = isoYear m ∧ isoWeek (addDays m k) = isoWeek m := by
  have h1 := thursdayOf_in_week hv hw hk
  have h2 := thursdayOf_monday hw
  unfold isoYear isoWeek
  rw [h1, h2]
  exact ⟨rfl, rfl⟩

theorem toRD_jan1_le {d : Date} (h : ValidDate d) :
    toRD ⟨d.year, 1, 1⟩ ≤ toRD d := by
  obtain ⟨h1, h2, h3, h4, h5⟩ := h
  have := daysBeforeMonth_one (y := d.year)
  unfold toRD
  dsimp only
  omega

/-- Stepping a Monday forward one week strictly increases the ISO
(year, week) pair lexicographically. -/
theorem iso_succ_week {m : Date} (hv : ValidDate m) (hw : weekday m = 0) :
    isoYear m < isoYear (addDays m 7) ∨
      (isoYear (addDays m 7) = isoYear m ∧
        isoWeek (addDays m 7) = isoWeek m + 1) := by
  have hv7 : ValidDate (addDays m 7) := validDate_addDays hv 7
  have hw7 : weekday (addDays m 7) = 0 := by
    rw [weekday_addDays hv 7, hw]
  have hth : thursdayOf m = addDays m 3 := thursdayOf_monday hw
  have hth7 : thursdayOf (addDays m 7) = addDays (addDays m 3) 7 := by
    rw [thursdayOf_monday hw7, addDays_add, addDays_add]
  have hvth : ValidDate (addDays m 3) := validDate_addDays hv 3
  have hyears : (addDays m 3).year ≤ (addDays (addDays m 3) 7).year :=
    year_addDays_ge _ 7
  rcases Nat.lt_or_ge (addDays m 3).year (addDays (addDays m 3) 7).year with hy | hy
  · left
    unfold isoYear
    rw [hth, hth7]
    exact hy
  · have hyeq : (addDays (addDays m 3) 7).year = (addDays m 3).year := by omega
    right
    constructor
    · unfold isoYear
      rw [hth, hth7, hyeq]
    · unfold isoWeek
      rw [hth, hth7, hyeq]
      have hrd : toRD (addDays (addDays m 3) 7) = toRD (addDays m 3) + 7 :=
        toRD_addDays hvth 7
      have hj : toRD ⟨(addDays m 3).year, 1, 1⟩ ≤ toRD (addDays m 3) :=
        toRD_jan1_le hvth
      omega

/-- `weekIdx` is the linear index of the Monday-based 7-day block of a date
(ordinal day 1, Monday 0001-01-01, starts block 0). -/
def weekIdx (d : Date) : Nat :=
  (toRD d - 1) / 7

/-- Strictly increasing `weekIdx` of Mondays translates to strictly
lexicographically increasing ISO pairs. -/
theorem iso_lt_of_weeks {m : Date} (hv : ValidDate m) (hw : weekday m = 0)
    {n : Nat} (hn : 1 ≤ n) :
    isoYear m < isoYear (addDays m (7 * n)) ∨
      (isoYear m = isoYear (addDays m (7 * n)) ∧
        isoWeek m < isoWeek (addDays m (7 * n))) := by
  induction n with
  | zero => omega
  | succ k ih =>
    rcases Nat.eq_zero_or_pos k with hk | hk
    · rw [hk]
      norm_num
      rcases iso_succ_week hv hw with h | ⟨h1, h2⟩
      · exact Or.inl h
      · exact Or.inr ⟨h1.symm, by omega⟩
    · have hm7 : ValidDate (addDays m (7 * k)) := validDate_addDays hv _
      have hw7 : weekday (addDays m (7 * k)) = 0 := by
        rw [weekday_addDays hv, hw]
        omega
      have hstep := iso_succ_week hm7 hw7
      rw [addDays_add] at hstep
      have hidx : 7 * k + 7 = 7 * (k + 1) := by omega
      rw [hidx] at hstep
      rcases ih hk with h | ⟨h1, h2⟩ <;> rcases hstep with h3 | ⟨h3, h4⟩ <;> omega

/-! ### Periods: `get_period`, `output_period` and the enumeration loop

`bugzilla.py` lines 82–104 and the date loop in `main` (lines 397–429);
`addons.py` has byte-identical copies (lines 63–85 and 334–366). -/

/-- A period key as returned by `get_period`: the Python function returns
tuples of different shapes per granularity ((iso year, iso week),
(year, month), (year, quarter), or the bare year); distinct constructors
keep them apart exactly as differently-shaped Python tuples never compare
equal as dict keys. -/
inductive Period where
  | week (y w : Nat)
  | month (y m : Nat)
  | quarter (y q : Nat)
  | year (y : Nat)
deriving DecidableEq, Repr

/-- `get_period(date)`: the period key of a date under the granularity
selector `PERIOD` (1 = week, 2 = month, 3 = quarter, 4 = year).  Any other
selector falls through to `return None` — a returned value, not an
exception. -/
def get_period (p : Nat) (d : Date) : Option Period :=
  if p = 1 then some (.week (isoYear d) (isoWeek d))
  else if p = 2 then some (.month d.year d.month)
  else if p = 3 then some (.quarter d.year ((d.month - 1) / 3))
  else if p = 4 then some (.year d.year)
  else none

/-- English month name, for `%B` in `output_period`. -/
def monthName (m : Nat) : String :=
  if m = 1 then "January" else if m = 2 then "February" else if m = 3 then "March"
  else if m = 4 then "April" else if m = 5 then "May" else if m = 6 then "June"
  else if m = 7 then "July" else if m = 8 then "August" else if m = 9 then "September"
  else if m = 10 then "October" else if m = 11 then "November"
  else if m = 12 then "December" else ""

/-- Zero-padded two-digit number, for `%V` in `output_period`. -/
def pad2 (n : Nat) : String :=
  if n < 10 then "0" ++ Nat.repr n else Nat.repr n

/-- `output_period(date)`: the human label of a date's period.  Any invalid
granularity selector falls through to `return None`. -/
def output_period (p : Nat) (d : Date) : Option String :=
  if p = 1 then some ("Week " ++ pad2 (isoWeek d) ++ ", " ++ Nat.repr (isoYear d))
  else if p = 2 then some (monthName d.month ++ " " ++ Nat.repr d.year)
  else if p = 3 then
    some ("Quarter " ++ Nat.repr ((d.month - 1) / 3 + 1) ++ ", " ++ Nat.repr d.year)
  else if p = 4 then some (Nat.repr d.year)
  else none

/-- The week-granularity start normalization in `main` of both scripts:
`weekday = start_date.weekday(); if weekday: start_date -= timedelta(6 - weekday)`. -/
def normalizeWeekStart (d : Date) : Date :=
  if weekday d ≠ 0 then subDays d (6 - weekday d) else d

/-- `date.replace(year=y, month=m)`: keeps the day; raises `ValueError`
(modelled as `none`) when the kept day does not exist in the new month. -/
def replaceYM (d : Date) (y m : Nat) : Option Date :=
  if ValidDate ⟨y, m, d.day⟩ then some ⟨y, m, d.day⟩ else none

/-- One advance step of the date loop in `main`: week adds
`timedelta(weeks=1)`; month/quarter add 1/3 months with explicit year carry
(`if month > 12: year += 1; month -= 12`) and `replace`; year replaces
`year + 1`.  For a selector outside 1–4 no branch fires and the loop variable
is left unchanged (the Python loop would then never terminate). -/
def advanceDate (p : Nat) (d : Date) : Option Date :=
  if p = 1 then some (addDays d 7)
  else if p = 2 then
    (if d.month + 1 > 12 then replaceYM d (d.year + 1) (d.month + 1 - 12)
     else replaceYM d d.year (d.month + 1))
  else if p = 3 then
    (if d.month + 3 > 12 then replaceYM d (d.year + 1) (d.month + 3 - 12)
     else replaceYM d d.year (d.month + 3))
  else if p = 4 then replaceYM d (d.year + 1) d.month
  else some d

/-- The period-enumeration loop of `main`
(`while date < now: dates.append(date); <advance>`), with explicit fuel.
`none` is a `ValueError` from `date.replace` — or exhausted fuel, which the
theorems below rule out (each advance moves at least one day forward). -/
def enumAux (adv : Date → Option Date) (e : Date) : Nat → Date → Option (List Date)
  | 0, _ => none
  | fuel + 1, d =>
    if dlt d e then
      (adv d).bind (fun d' => (enumAux adv e fuel d').map (fun rest => d :: rest))
    else some []

/-- The full enumeration: all period-start dates from `start` while `< e`,
stepping by the granularity's advance; fuel `toRD e + 2` dominates the
iteration count since every step advances at least one day. -/
def enumerate_periods (p : Nat) (start e : Date) : Option (List Date) :=
  enumAux (advanceDate p) e (toRD e + 2) start

/-- A start date that is the first day of its period: Monday for weeks, the
1st for months, the 1st of January/April/July/October for quarters,
January 1 for years. -/
def alignedStart (p : Nat) (d : Date) : Prop :=
  if p = 1 then weekday d = 0
  else if p = 2 then d.day = 1
  else if p = 3 then d.day = 1 ∧ d.month % 3 = 1
  else if p = 4 then d.day = 1 ∧ d.month = 1
  else False

instance (p : Nat) (d : Date) : Decidable (alignedStart p d) := by
  unfold alignedStart; infer_instance

/-- Chronological order on period keys of the same granularity
(lexicographic on the key tuple, as Python tuples compare). -/
def periodLt : Period → Period → Prop
  | .week y w, .week y' w' => y < y' ∨ (y = y' ∧ w < w')
  | .month y m, .month y' m' => y < y' ∨ (y = y' ∧ m < m')
  | .quarter y q, .quarter y' q' => y < y' ∨ (y = y' ∧ q < q')
  | .year y, .year y' => y < y'
  | _, _ => False

/-- Order on optional period keys (`none` is never ordered). -/
def periodLtOpt : Option Period → Option Period → Prop
  | some a, some b => periodLt a b
  | _, _ => False

theorem dlt_trans {a b c : Date} (h1 : dlt a b) (h2 : dlt b c) : dlt a c := by
  unfold dlt at *
  omega

theorem dlt_irrefl (a : Date) : ¬ dlt a a := by
  unfold dlt
  omega

theorem dlt_of_toRD_lt {a b : Date} (ha : ValidDate a) (hb : ValidDate b)
    (h : toRD a < toRD b) : dlt a b :=
  (dlt_iff_toRD_lt ha hb).mpr h

theorem not_dlt_iff_le {a b : Date} (ha : ValidDate a) (hb : ValidDate b) :
    ¬ dlt a b ↔ toRD b ≤ toRD a := by
  rw [dlt_iff_toRD_lt ha hb]
  omega

/-- Master lemma for the enumeration loop, for any granularity presented by
an advance function `adv`, a linear period index `pidx` and a predicate
`aligned` singling out the first day of each period.  With enough fuel the
loop succeeds, returns a strictly increasing list headed by the start, and
covers the period of every date of the half-open range exactly once. -/
theorem enumAux_master (adv : Date → Option Date) (pidx : Date → Nat)
    (aligned : Date → Prop) (e : Date) (hve : ValidDate e)
    (Hadv : ∀ c, aligned c → ValidDate c → ∃ c', adv c = some c' ∧ aligned c' ∧
      ValidDate c' ∧ pidx c' = pidx c + 1 ∧ toRD c < toRD c')
    (Halign : ∀ d, ValidDate d → ∃ a, aligned a ∧ ValidDate a ∧ pidx a = pidx d ∧
      toRD a ≤ toRD d)
    (Hinj : ∀ a b, aligned a → ValidDate a → aligned b → ValidDate b →
      pidx a = pidx b → a = b)
    (Hmono : ∀ a b, ValidDate a → ValidDate b → toRD a ≤ toRD b → pidx a ≤ pidx b) :
    ∀ fuel c, aligned c → ValidDate c → toRD e ≤ toRD c + fuel →
      ∃ ds, enumAux adv e (fuel + 1) c = some ds ∧
        (dlt c e → ds.head? = some c) ∧ (¬ dlt c e → ds = []) ∧
        List.Chain' dlt ds ∧
        (∀ x ∈ ds, aligned x ∧ ValidDate x ∧ pidx c ≤ pidx x ∧ dlt x e) ∧
        (∀ d, ValidDate d → toRD c ≤ toRD d → dlt d e → ∃ x ∈ ds, pidx x = pidx d) := by
  intro fuel
  induction fuel with
  | zero =>
    intro c hac hvc hfc
    have hnlt : ¬ dlt c e := by
      rw [not_dlt_iff_le hvc hve] at *
      omega
    refine ⟨[], ?_, ?_, ?_, ?_, ?_, ?_⟩
    · show enumAux adv e 1 c = some []
      unfold enumAux
      rw [if_neg hnlt]
    · intro h
      exact absurd h hnlt
    · intro _
      rfl
    · exact List.chain'_nil
    · intro x hx
      simp at hx
    · intro d hvd hcd hde
      rw [dlt_iff_toRD_lt hvd hve] at hde
      omega
  | succ f ih =>
    intro c hac hvc hfc
    by_cases hce : dlt c e
    · obtain ⟨c', hadv, hac', hvc', hpx', hrd'⟩ := Hadv c hac hvc
      obtain ⟨ds', heq', hhd', hnil', hch', hmem', hcov'⟩ :=
        ih c' hac' hvc' (by omega)
      refine ⟨c :: ds', ?_, ?_, ?_, ?_, ?_, ?_⟩
      · show enumAux adv e (f + 1 + 1) c = some (c :: ds')
        unfold enumAux
        rw [if_pos hce, hadv, Option.some_bind, heq', Option.map_some']
      · intro _
        rfl
      · intro h
        exact absurd hce h
      · refine List.chain'_cons'.mpr ⟨?_, hch'⟩
        intro y hy
        by_cases hc'e : dlt c' e
        · have : ds'.head? = some c' := hhd' hc'e
          rw [this] at hy
          cases hy
          exact dlt_of_toRD_lt hvc hvc' hrd'
        · have : ds' = [] := hnil' hc'e
          rw [this] at hy
          cases hy
      · intro x hx
        rcases List.mem_cons.mp hx with hx | hx
        · subst hx
          exact ⟨hac, hvc, le_refl _, hce⟩
        · obtain ⟨h1, h2, h3, h4⟩ := hmem' x hx
          exact ⟨h1, h2, by omega, h4⟩
      · intro d hvd hcd hde
        by_cases hpe : pidx d = pidx c
        · exact ⟨c, List.mem_cons_self _ _, hpe.symm⟩
        · have hge : pidx c ≤ pidx d := Hmono c d hvc hvd hcd
          have hgt : pidx c' ≤ pidx d := by omega
          obtain ⟨a, haa, hva, hpa, hra⟩ := Halign d hvd
          have hc'a : toRD c' ≤ toRD a := by
            by_contra hcon
            have h1 : pidx a ≤ pidx c' := Hmono a c' hva hvc' (by omega)
            have h2 : pidx a = pidx c' := by omega
            have h3 : a = c' := Hinj a c' haa hva hac' hvc' h2
            rw [h3] at hcon
            omega
          obtain ⟨x, hxm, hxp⟩ := hcov' d hvd (by omega) hde
          exact ⟨x, List.mem_cons_of_mem _ hxm, hxp⟩
    · refine ⟨[], ?_, ?_, ?_, ?_, ?_, ?_⟩
      · show enumAux adv e (f + 1 + 1) c = some []
        unfold enumAux
        rw [if_neg hce]
      · intro h
        exact absurd h hce
      · intro _
        rfl
      · exact List.chain'_nil
      · intro x hx
        simp at hx
      · intro d hvd hcd hde
        rw [not_dlt_iff_le hvc hve] at hce
        rw [dlt_iff_toRD_lt hvd hve] at hde
        omega

/-- Linear index of a date's period for each granularity: used only in the
proofs, to present `enumAux_master` with a totally ordered period index. -/
def pidxOf (p : Nat) (d : Date) : Nat :=
  if p = 1 then weekIdx d
  else if p = 2 then 12 * d.year + (d.month - 1)
  else if p = 3 then 4 * d.year + (d.month - 1) / 3
  else d.year

theorem advanceDate_two (c : Date) :
    advanceDate 2 c = (if c.month + 1 > 12 then replaceYM c (c.year + 1) (c.month + 1 - 12)
      else replaceYM c c.year (c.month + 1)) := rfl

theorem advanceDate_three (c : Date) :
    advanceDate 3 c = (if c.month + 3 > 12 then replaceYM c (c.year + 1) (c.month + 3 - 12)
      else replaceYM c c.year (c.month + 3)) := rfl

theorem advanceDate_four (c : Date) :
    advanceDate 4 c = replaceYM c (c.year + 1) c.month := rfl

theorem advanceDate_one (c : Date) : advanceDate 1 c = some (addDays c 7) := rfl

theorem replaceYM_valid {c : Date} {y m : Nat} (h : ValidDate ⟨y, m, c.day⟩) :
    replaceYM c y m = some ⟨y, m, c.day⟩ := by
  unfold replaceYM
  rw [if_pos h]

theorem toRD_day_le {y m a b : Nat} (h : a ≤ b) :
    toRD ⟨y, m, a⟩ ≤ toRD ⟨y, m, b⟩ := by
  unfold toRD
  dsimp only
  omega

theorem validDate_mk {y m d : Nat} (h1 : 1 ≤ y) (h2 : 1 ≤ m) (h3 : m ≤ 12)
    (h4 : 1 ≤ d) (h5 : d ≤ daysInMonth y m) : ValidDate ⟨y, m, d⟩ :=
  ⟨h1, h2, h3, h4, h5⟩

theorem month_adv {c : Date} (ha : alignedStart 2 c) (hv : ValidDate c) :
    ∃ c', advanceDate 2 c = some c' ∧ alignedStart 2 c' ∧ ValidDate c' ∧
      pidxOf 2 c' = pidxOf 2 c + 1 ∧ toRD c < toRD c' := by
  have hd1 : c.day = 1 := by simpa [alignedStart] using ha
  obtain ⟨h1, h2, h3, h4, h5⟩ := hv
  rw [advanceDate_two]
  by_cases hm : c.month + 1 > 12
  · have hm12 : c.month = 12 := by omega
    have hval : ValidDate ⟨c.year + 1, c.month + 1 - 12, c.day⟩ :=
      validDate_mk (by omega) (by omega) (by omega) (by omega)
        (by have := daysInMonth_pos (c.year + 1) (c.month + 1 - 12); omega)
    rw [if_pos hm, replaceYM_valid hval]
    refine ⟨_, rfl, ?_, hval, ?_, ?_⟩
    · simp [alignedStart, hd1]
    · simp only [pidxOf]
      norm_num
      omega
    · exact toRD_lt_of_dlt ⟨h1, h2, h3, h4, h5⟩ hval (by unfold dlt; dsimp only; omega)
  · have hval : ValidDate ⟨c.year, c.month + 1, c.day⟩ :=
      validDate_mk (by omega) (by omega) (by omega) (by omega)
        (by have := daysInMonth_pos c.year (c.month + 1); omega)
    rw [if_neg hm, replaceYM_valid hval]
    refine ⟨_, rfl, ?_, hval, ?_, ?_⟩
    · simp [alignedStart, hd1]
    · simp only [pidxOf]
      norm_num
      omega
    · exact toRD_lt_of_dlt ⟨h1, h2, h3, h4, h5⟩ hval (by unfold dlt; dsimp only; omega)

theorem month_align {d : Date} (hv : ValidDate d) :
    ∃ a, alignedStart 2 a ∧ ValidDate a ∧ pidxOf 2 a = pidxOf 2 d ∧
      toRD a ≤ toRD d ∧ a.year = d.year ∧ a.month = d.month := by
  obtain ⟨h1, h2, h3, h4, h5⟩ := hv
  have hp := daysInMonth_pos d.year d.month
  refine ⟨⟨d.year, d.month, 1⟩, by simp [alignedStart],
    validDate_mk h1 h2 h3 (le_refl 1) hp, by simp [pidxOf], ?_, rfl, rfl⟩
  have := toRD_day_le (y := d.year) (m := d.month) h4
  have hde : d = ⟨d.year, d.month, d.day⟩ := rfl
  rw [hde]
  exact this

theorem month_inj {a b : Date} (ha : alignedStart 2 a) (hva : ValidDate a)
    (hb : alignedStart 2 b) (hvb : ValidDate b) (h : pidxOf 2 a = pidxOf 2 b) :
    a = b := by
  have hda : a.day = 1 := by simpa [alignedStart] using ha
  have hdb : b.day = 1 := by simpa [alignedStart] using hb
  obtain ⟨ha1, ha2, ha3, _, _⟩ := hva
  obtain ⟨hb1, hb2, hb3, _, _⟩ := hvb
  simp only [pidxOf] at h
  norm_num at h
  cases a
  cases b
  simp_all
  omega

theorem month_mono {a b : Date} (hva : ValidDate a) (hvb : ValidDate b)
    (h : toRD a ≤ toRD b) : pidxOf 2 a ≤ pidxOf 2 b := by
  obtain ⟨ha1, ha2, ha3, ha4, ha5⟩ := hva
  obtain ⟨hb1, hb2, hb3, hb4, hb5⟩ := hvb
  by_contra hcon
  simp only [pidxOf] at hcon
  norm_num at hcon
  have hdlt : dlt b a := by
    unfold dlt
    omega
  have := toRD_lt_of_dlt ⟨hb1, hb2, hb3, hb4, hb5⟩ ⟨ha1, ha2, ha3, ha4, ha5⟩ hdlt
  omega

theorem quarter_adv {c : Date} (ha : alignedStart 3 c) (hv : ValidDate c) :
    ∃ c', advanceDate 3 c = some c' ∧ alignedStart 3 c' ∧ ValidDate c' ∧
      pidxOf 3 c' = pidxOf 3 c + 1 ∧ toRD c < toRD c' := by
  have ha' : c.day = 1 ∧ c.month % 3 = 1 := by simpa [alignedStart] using ha
  obtain ⟨hd1, hm3⟩ := ha'
  obtain ⟨h1, h2, h3, h4, h5⟩ := hv
  rw [advanceDate_three]
  by_cases hm : c.month + 3 > 12
  · have hm10 : c.month = 10 := by omega
    have hval : ValidDate ⟨c.year + 1, c.month + 3 - 12, c.day⟩ :=
      validDate_mk (by omega) (by omega) (by omega) (by omega)
        (by have := daysInMonth_pos (c.year + 1) (c.month + 3 - 12); omega)
    rw [if_pos hm, replaceYM_valid hval]
    refine ⟨_, rfl, ?_, hval, ?_, ?_⟩
    · simp only [alignedStart]
      norm_num
      omega
    · simp only [pidxOf]
      norm_num
      omega
    · exact toRD_lt_of_dlt ⟨h1, h2, h3, h4, h5⟩ hval (by unfold dlt; dsimp only; omega)
  · have hval : ValidDate ⟨c.year, c.month + 3, c.day⟩ :=
      validDate_mk (by omega) (by omega) (by omega) (by omega)
        (by have := daysInMonth_pos c.year (c.month + 3); omega)
    rw [if_neg hm, replaceYM_valid hval]
    refine ⟨_, rfl, ?_, hval, ?_, ?_⟩
    · simp only [alignedStart]
      norm_num
      omega
    · simp only [pidxOf]
      norm_num
      omega
    · exact toRD_lt_of_dlt ⟨h1, h2, h3, h4, h5⟩ hval (by unfold dlt; dsimp only; omega)

theorem quarter_align {d : Date} (hv : ValidDate d) :
    ∃ a, alignedStart 3 a ∧ ValidDate a ∧ pidxOf 3 a = pidxOf 3 d ∧
      toRD a ≤ toRD d ∧ a.year = d.year ∧ (a.month - 1) / 3 = (d.month - 1) / 3 := by
  obtain ⟨h1, h2, h3, h4, h5⟩ := hv
  have hp := daysInMonth_pos d.year (3 * ((d.month - 1) / 3) + 1)
  refine ⟨⟨d.year, 3 * ((d.month - 1) / 3) + 1, 1⟩, ?_,
    validDate_mk h1 (by omega) (by omega) (le_refl 1) hp, ?_, ?_, rfl, by dsimp only; omega⟩
  · simp only [alignedStart]
    norm_num <;> omega
  · simp only [pidxOf]
    norm_num <;> omega
  · have hcase : 3 * ((d.month - 1) / 3) + 1 = d.month ∨ 3 * ((d.month - 1) / 3) + 1 < d.month := by
      omega
    rcases hcase with hc | hc
    · rw [hc]
      have := toRD_day_le (y := d.year) (m := d.month) h4
      have hde : d = ⟨d.year, d.month, d.day⟩ := rfl
      rw [hde]
      exact this
    · have hdlt : dlt ⟨d.year, 3 * ((d.month - 1) / 3) + 1, 1⟩ d := by
        unfold dlt
        dsimp only
        omega
      have := toRD_lt_of_dlt (validDate_mk h1 (by omega) (by omega) (le_refl 1) hp)
        ⟨h1, h2, h3, h4, h5⟩ hdlt
      omega

theorem quarter_inj {a b : Date} (ha : alignedStart 3 a) (hva : ValidDate a)
    (hb : alignedStart 3 b) (hvb : ValidDate b) (h : pidxOf 3 a = pidxOf 3 b) :
    a = b := by
  have ha' : a.day = 1 ∧ a.month % 3 = 1 := by simpa [alignedStart] using ha
  have hb' : b.day = 1 ∧ b.month % 3 = 1 := by simpa [alignedStart] using hb
  obtain ⟨ha1, ha2, ha3, _, _⟩ := hva
  obtain ⟨hb1, hb2, hb3, _, _⟩ := hvb
  simp only [pidxOf] at h
  norm_num at h
  cases a
  cases b
  simp_all
  omega

theorem quarter_mono {a b : Date} (hva : ValidDate a) (hvb : ValidDate b)
    (h : toRD a ≤ toRD b) : pidxOf 3 a ≤ pidxOf 3 b := by
  obtain ⟨ha1, ha2, ha3, ha4, ha5⟩ := hva
  obtain ⟨hb1, hb2, hb3, hb4, hb5⟩ := hvb
  by_contra hcon
  simp only [pidxOf] at hcon
  norm_num at hcon
  have hdlt : dlt b a := by
    unfold dlt
    omega
  have := toRD_lt_of_dlt ⟨hb1, hb2, hb3, hb4, hb5⟩ ⟨ha1, ha2, ha3, ha4, ha5⟩ hdlt
  omega

theorem year_adv {c : Date} (ha : alignedStart 4 c) (hv : ValidDate c) :
    ∃ c', advanceDate 4 c = some c' ∧ alignedStart 4 c' ∧ ValidDate c' ∧
      pidxOf 4 c' = pidxOf 4 c + 1 ∧ toRD c < toRD c' := by
  have ha' : c.day = 1 ∧ c.month = 1 := by simpa [alignedStart] using ha
  obtain ⟨hd1, hm1⟩ := ha'
  obtain ⟨h1, h2, h3, h4, h5⟩ := hv
  rw [advanceDate_four]
  have hval : ValidDate ⟨c.year + 1, c.month, c.day⟩ :=
    validDate_mk (by omega) (by omega) (by omega) (by omega)
      (by have := daysInMonth_pos (c.year + 1) c.month; omega)
  rw [replaceYM_valid hval]
  refine ⟨_, rfl, ?_, hval, ?_, ?_⟩
  · simp only [alignedStart]
    norm_num
    omega
  · simp [pidxOf]
  · exact toRD_lt_of_dlt ⟨h1, h2, h3, h4, h5⟩ hval (by unfold dlt; dsimp only; omega)

theorem year_align {d : Date} (hv : ValidDate d) :
    ∃ a, alignedStart 4 a ∧ ValidDate a ∧ pidxOf 4 a = pidxOf 4 d ∧
      toRD a ≤ toRD d ∧ a.year = d.year := by
  obtain ⟨h1, h2, h3, h4, h5⟩ := hv
  have hp := daysInMonth_pos d.year 1
  refine ⟨⟨d.year, 1, 1⟩, by simp [alignedStart],
    validDate_mk h1 (le_refl 1) (by norm_num) (le_refl 1) hp, by simp [pidxOf], ?_, rfl⟩
  exact toRD_jan1_le ⟨h1, h2, h3, h4, h5⟩

theorem year_inj {a b : Date} (ha : alignedStart 4 a) (hva : ValidDate a)
    (hb : alignedStart 4 b) (hvb : ValidDate b) (h : pidxOf 4 a = pidxOf 4 b) :
    a = b := by
  have ha' : a.day = 1 ∧ a.month = 1 := by simpa [alignedStart] using ha
  have hb' : b.day = 1 ∧ b.month = 1 := by simpa [alignedStart] using hb
  simp only [pidxOf] at h
  norm_num at h
  cases a
  cases b
  simp_all

theorem year_mono {a b : Date} (hva : ValidDate a) (hvb : ValidDate b)
    (h : toRD a ≤ toRD b) : pidxOf 4 a ≤ pidxOf 4 b := by
  obtain ⟨ha1, ha2, ha3, ha4, ha5⟩ := hva
  obtain ⟨hb1, hb2, hb3, hb4, hb5⟩ := hvb
  by_contra hcon
  simp only [pidxOf] at hcon
  norm_num at hcon
  have hdlt : dlt b a := by
    unfold dlt
    omega
  have := toRD_lt_of_dlt ⟨hb1, hb2, hb3, hb4, hb5⟩ ⟨ha1, ha2, ha3, ha4, ha5⟩ hdlt
  omega

theorem alignedStart_one_iff {d : Date} : alignedStart 1 d ↔ weekday d = 0 := by
  simp [alignedStart]

theorem pidxOf_one (d : Date) : pidxOf 1 d = weekIdx d := rfl

theorem week_adv {c : Date} (ha : alignedStart 1 c) (hv : ValidDate c) :
    ∃ c', advanceDate 1 c = some c' ∧ alignedStart 1 c' ∧ ValidDate c' ∧
      pidxOf 1 c' = pidxOf 1 c + 1 ∧ toRD c < toRD c' := by
  have hw : weekday c = 0 := alignedStart_one_iff.mp ha
  have hrd := toRD_addDays hv 7
  have hpos := toRD_pos hv
  refine ⟨addDays c 7, advanceDate_one c, ?_, validDate_addDays hv 7, ?_, ?_⟩
  · rw [alignedStart_one_iff, weekday_addDays hv, hw]
  · rw [pidxOf_one, pidxOf_one]
    unfold weekIdx
    rw [hrd]
    omega
  · omega

theorem week_align {d : Date} (hv : ValidDate d) :
    ∃ a, alignedStart 1 a ∧ ValidDate a ∧ pidxOf 1 a = pidxOf 1 d ∧
      toRD a ≤ toRD d ∧ isoYear a = isoYear d ∧ isoWeek a = isoWeek d := by
  have hpos := toRD_pos hv
  have hwd : weekday d + 1 ≤ toRD d := by
    unfold weekday
    omega
  obtain ⟨hva, hra⟩ := validDate_subDays hv hwd
  have hwa : weekday (subDays d (weekday d)) = 0 := by
    unfold weekday at *
    omega
  have hd : addDays (subDays d (weekday d)) (weekday d) = d := addDays_subDays hv hwd
  have hiso := iso_const_on_week hva hwa (k := weekday d) (by have := weekday_lt d; omega)
  rw [hd] at hiso
  refine ⟨subDays d (weekday d), alignedStart_one_iff.mpr hwa, hva, ?_, by omega,
    hiso.1.symm, hiso.2.symm⟩
  rw [pidxOf_one, pidxOf_one]
  unfold weekIdx weekday at *
  omega

theorem week_inj {a b : Date} (ha : alignedStart 1 a) (hva : ValidDate a)
    (hb : alignedStart 1 b) (hvb : ValidDate b) (h : pidxOf 1 a = pidxOf 1 b) :
    a = b := by
  have hwa : weekday a = 0 := alignedStart_one_iff.mp ha
  have hwb : weekday b = 0 := alignedStart_one_iff.mp hb
  have hpa := toRD_pos hva
  have hpb := toRD_pos hvb
  rw [pidxOf_one, pidxOf_one] at h
  unfold weekIdx at h
  unfold weekday at hwa hwb
  exact toRD_inj hva hvb (by omega)

theorem week_mono {a b : Date} (hva : ValidDate a) (hvb : ValidDate b)
    (h : toRD a ≤ toRD b) : pidxOf 1 a ≤ pidxOf 1 b := by
  rw [pidxOf_one, pidxOf_one]
  unfold weekIdx
  omega

theorem week_plt {a b : Date} (ha : alignedStart 1 a) (hva : ValidDate a)
    (hb : alignedStart 1 b) (hvb : ValidDate b) (h : pidxOf 1 a < pidxOf 1 b) :
    periodLt (.week (isoYear a) (isoWeek a)) (.week (isoYear b) (isoWeek b)) := by
  have hwa : weekday a = 0 := alignedStart_one_iff.mp ha
  have hwb : weekday b = 0 := alignedStart_one_iff.mp hb
  have hpa := toRD_pos hva
  have hpb := toRD_pos hvb
  rw [pidxOf_one, pidxOf_one] at h
  have hadiv : toRD a = 7 * weekIdx a + 1 := by
    unfold weekday at hwa
    unfold weekIdx
    omega
  have hbdiv : toRD b = 7 * weekIdx b + 1 := by
    unfold weekday at hwb
    unfold weekIdx
    omega
  have hle : toRD a ≤ toRD b := by omega
  have hreach := addDays_reach hva hvb hle
  have hsub : toRD b - toRD a = 7 * (weekIdx b - weekIdx a) := by omega
  rw [hsub] at hreach
  have := iso_lt_of_weeks hva hwa (n := weekIdx b - weekIdx a) (by omega)
  rw [← hreach] at this
  show isoYear a < isoYear b ∨ (isoYear a = isoYear b ∧ isoWeek a < isoWeek b)
  exact this

theorem periodLt_irrefl (x : Period) : ¬ periodLt x x := by
  cases x <;> simp [periodLt]

theorem mem_of_getLast_eq {α : Type} :
    ∀ {l : List α} {L : α}, l.getLast? = some L → L ∈ l := by
  intro l
  induction l with
  | nil =>
    intro L h
    simp at h
  | cons a t ih =>
    intro L h
    cases t with
    | nil =>
      simp at h
      simp [h]
    | cons b t' =>
      rw [List.getLast?_cons_cons] at h
      exact List.mem_cons_of_mem _ (ih h)

theorem pairwise_getLast {α : Type} {R : α → α → Prop} :
    ∀ {l : List α} {L : α}, l.Pairwise R → l.getLast? = some L →
      ∀ x ∈ l, x = L ∨ R x L := by
  intro l
  induction l with
  | nil =>
    intro L _ h
    simp at h
  | cons a t ih =>
    intro L hp hL x hx
    rcases List.pairwise_cons.mp hp with ⟨hra, hp'⟩
    cases t with
    | nil =>
      simp at hL
      rcases List.mem_singleton.mp hx with h
      left
      rw [h, hL]
    | cons b t' =>
      rw [List.getLast?_cons_cons] at hL
      rcases List.mem_cons.mp hx with h | h
      · right
        rw [h]
        exact hra L (mem_of_getLast_eq hL)
      · exact ih hp' hL x h

/-- All period-level conclusions for one granularity, derived from the master
lemma plus the per-granularity facts. -/
theorem enum_final (adv : Date → Option Date) (pidx : Date → Nat)
    (aligned : Date → Prop) (pkey : Date → Period) (start e : Date)
    (hvs : ValidDate start) (hve : ValidDate e) (has : aligned start)
    (hse : dlt start e)
    (Hadv : ∀ c, aligned c → ValidDate c → ∃ c', adv c = some c' ∧ aligned c' ∧
      ValidDate c' ∧ pidx c' = pidx c + 1 ∧ toRD c < toRD c')
    (Halign : ∀ d, ValidDate d → ∃ a, aligned a ∧ ValidDate a ∧ pidx a = pidx d ∧
      toRD a ≤ toRD d)
    (Hinj : ∀ a b, aligned a → ValidDate a → aligned b → ValidDate b →
      pidx a = pidx b → a = b)
    (Hmono : ∀ a b, ValidDate a → ValidDate b → toRD a ≤ toRD b → pidx a ≤ pidx b)
    (Hkey : ∀ x d, aligned x → ValidDate x → ValidDate d → pidx x = pidx d →
      pkey x = pkey d)
    (Hplt : ∀ a b, aligned a → ValidDate a → aligned b → ValidDate b →
      pidx a < pidx b → periodLt (pkey a) (pkey b)) :
    ∃ ds, enumAux adv e (toRD e + 2) start = some ds ∧
      ds.head? = some start ∧
      List.Chain' dlt ds ∧
      (∀ x ∈ ds, ValidDate x ∧ dlt x e ∧ toRD start ≤ toRD x) ∧
      (∀ d, ValidDate d → toRD start ≤ toRD d → dlt d e →
        ∃ x ∈ ds, pkey x = pkey d) ∧
      List.Pairwise (fun a b => pkey a ≠ pkey b) ds ∧
      (∃ L, ds.getLast? = some L ∧ ∀ d, ValidDate d → toRD start ≤ toRD d → dlt d e →
        pkey d = pkey L ∨ periodLt (pkey d) (pkey L)) := by
  obtain ⟨ds, heq, hhd, hnil, hch, hmem, hcov⟩ :=
    enumAux_master adv pidx aligned e hve Hadv Halign Hinj Hmono
      (toRD e + 1) start has hvs (by omega)
  have heq2 : enumAux adv e (toRD e + 2) start = some ds := heq
  have hpairs : ds.Pairwise dlt := by
    haveI : IsTrans Date dlt := ⟨fun a b c => dlt_trans⟩
    exact List.chain'_iff_pairwise.mp hch
  have hstrict : ∀ x ∈ ds, ∀ y ∈ ds, dlt x y → pidx x < pidx y := by
    intro x hx y hy hxy
    obtain ⟨hax, hvx, _, _⟩ := hmem x hx
    obtain ⟨hay, hvy, _, _⟩ := hmem y hy
    have h1 : toRD x < toRD y := toRD_lt_of_dlt hvx hvy hxy
    have h2 : pidx x ≤ pidx y := Hmono x y hvx hvy (by omega)
    rcases Nat.lt_or_ge (pidx x) (pidx y) with h | h
    · exact h
    · have : pidx x = pidx y := by omega
      have := Hinj x y hax hvx hay hvy this
      rw [this] at h1
      omega
  refine ⟨ds, heq2, hhd hse, hch, ?_, ?_, ?_, ?_⟩
  · intro x hx
    obtain ⟨_, hvx, hpx, hxe⟩ := hmem x hx
    refine ⟨hvx, hxe, ?_⟩
    by_contra hcon
    obtain ⟨hax, _, _, _⟩ := hmem x hx
    have h2 : pidx x ≤ pidx start := Hmono x start hvx hvs (by omega)
    have h3 : pidx x = pidx start := by omega
    have h4 : x = start := Hinj x start hax hvx has hvs h3
    rw [h4] at hcon
    omega
  · intro d hvd hsd hde
    obtain ⟨x, hx, hpx⟩ := hcov d hvd hsd hde
    obtain ⟨hax, hvx, _, _⟩ := hmem x hx
    exact ⟨x, hx, Hkey x d hax hvx hvd hpx⟩
  · refine List.Pairwise.imp_of_mem ?_ hpairs
    intro a b hma hmb hab
    obtain ⟨haa, hva, _, _⟩ := hmem a hma
    obtain ⟨hab', hvb, _, _⟩ := hmem b hmb
    have hlt := Hplt a b haa hva hab' hvb (hstrict a hma b hmb hab)
    intro hc
    rw [hc] at hlt
    exact periodLt_irrefl _ hlt
  · have hne : ds ≠ [] := by
      intro hc
      have := hhd hse
      rw [hc] at this
      simp at this
    obtain ⟨L, hL⟩ : ∃ L, ds.getLast? = some L := by
      cases hds : ds.getLast? with
      | none =>
        rw [List.getLast?_eq_none_iff] at hds
        exact absurd hds hne
      | some L => exact ⟨L, rfl⟩
    have hLm : L ∈ ds := mem_of_getLast_eq hL
    obtain ⟨haL, hvL, _, _⟩ := hmem L hLm
    refine ⟨L, hL, ?_⟩
    intro d hvd hsd hde
    obtain ⟨x, hx, hpx⟩ := hcov d hvd hsd hde
    obtain ⟨hax, hvx, _, _⟩ := hmem x hx
    have hkey : pkey x = pkey d := Hkey x d hax hvx hvd hpx
    rcases pairwise_getLast hpairs hL x hx with hxL | hxL
    · left
      rw [← hkey, hxL]
    · right
      rw [← hkey]
      exact Hplt x L hax hvx haL hvL (hstrict x hx L hLm hxL)

theorem get_period_one (d : Date) :
    get_period 1 d = some (.week (isoYear d) (isoWeek d)) := rfl

theorem get_period_two (d : Date) : get_period 2 d = some (.month d.year d.month) := rfl

theorem get_period_three (d : Date) :
    get_period 3 d = some (.quarter d.year ((d.month - 1) / 3)) := rfl

theorem get_period_four (d : Date) : get_period 4 d = some (.year d.year) := rfl

theorem month_key {x d : Date} (hvx : ValidDate x) (hvd : ValidDate d)
    (h : pidxOf 2 x = pidxOf 2 d) :
    Period.month x.year x.month = Period.month d.year d.month := by
  obtain ⟨hx1, hx2, hx3, _, _⟩ := hvx
  obtain ⟨hd1, hd2, hd3, _, _⟩ := hvd
  simp only [pidxOf] at h
  norm_num at h
  have hy : x.year = d.year ∧ x.month = d.month := by omega
  rw [hy.1, hy.2]

theorem quarter_key {x d : Date} (hvx : ValidDate x) (hvd : ValidDate d)
    (h : pidxOf 3 x = pidxOf 3 d) :
    Period.quarter x.year ((x.month - 1) / 3) = Period.quarter d.year ((d.month - 1) / 3) := by
  obtain ⟨hx1, hx2, hx3, _, _⟩ := hvx
  obtain ⟨hd1, hd2, hd3, _, _⟩ := hvd
  simp only [pidxOf] at h
  norm_num at h
  have hy : x.year = d.year ∧ (x.month - 1) / 3 = (d.month - 1) / 3 := by omega
  rw [hy.1, hy.2]

theorem year_key {x d : Date} (h : pidxOf 4 x = pidxOf 4 d) :
    Period.year x.year = Period.year d.year := by
  simp only [pidxOf] at h
  norm_num at h
  rw [h]

theorem week_key {x d : Date} (hax : alignedStart 1 x) (hvx : ValidDate x)
    (hvd : ValidDate d) (h : pidxOf 1 x = pidxOf 1 d) :
    Period.week (isoYear x) (isoWeek x) = Period.week (isoYear d) (isoWeek d) := by
  obtain ⟨a, haa, hva, hpa, _, hy, hw⟩ := week_align hvd
  have : x = a := week_inj hax hvx haa hva (by omega)
  rw [this, hy, hw]

theorem month_plt {a b : Date} (hva : ValidDate a) (hvb : ValidDate b)
    (h : pidxOf 2 a < pidxOf 2 b) :
    periodLt (.month a.year a.month) (.month b.year b.month) := by
  obtain ⟨ha1, ha2, ha3, _, _⟩ := hva
  obtain ⟨hb1, hb2, hb3, _, _⟩ := hvb
  simp only [pidxOf] at h
  norm_num at h
  show a.year < b.year ∨ (a.year = b.year ∧ a.month < b.month)
  omega

theorem quarter_plt {a b : Date} (hva : ValidDate a) (hvb : ValidDate b)
    (h : pidxOf 3 a < pidxOf 3 b) :
    periodLt (.quarter a.year ((a.month - 1) / 3)) (.quarter b.year ((b.month - 1) / 3)) := by
  obtain ⟨ha1, ha2, ha3, _, _⟩ := hva
  obtain ⟨hb1, hb2, hb3, _, _⟩ := hvb
  simp only [pidxOf] at h
  norm_num at h
  show a.year < b.year ∨ (a.year = b.year ∧ (a.month - 1) / 3 < (b.month - 1) / 3)
  omega

theorem year_plt {a b : Date} (h : pidxOf 4 a < pidxOf 4 b) :
    periodLt (.year a.year) (.year b.year) := by
  simp only [pidxOf] at h
  norm_num at h
  exact h

/-- C4 (counterexample): as stated — for *every* start date — the claim
fails: from the unaligned start 2020-01-15 with end 2020-02-10 and month
granularity, the enumeration returns only the 2020-01-15 entry, yet the
period (2020, February) touches the half-open range (witness date
2020-02-05) and no returned entry carries it; it is also not true that the
last element's period is the last period strictly before the end. -/
theorem enumerate_periods_counterexample :
    enumerate_periods 2 ⟨2020, 1, 15⟩ ⟨2020, 2, 10⟩ = some [⟨2020, 1, 15⟩] ∧
    ValidDate ⟨2020, 2, 5⟩ ∧ ¬ dlt ⟨2020, 2, 5⟩ ⟨2020, 1, 15⟩ ∧
    dlt ⟨2020, 2, 5⟩ ⟨2020, 2, 10⟩ ∧
    (∀ x ∈ [(⟨2020, 1, 15⟩ : Date)], get_period 2 x ≠ get_period 2 ⟨2020, 2, 5⟩) := by
  refine ⟨by decide, by decide, by decide, by decide, ?_⟩
  intro x hx
  rcases List.mem_singleton.mp hx with h
  rw [h]
  decide

/-- C4 (amended): for every start date that is the *first day of its
period* (Monday / 1st of month / 1st of quarter / January 1) and every
later end date, the enumeration succeeds and returns a finite strictly
increasing sequence of valid dates all lying in the half-open range
`[start, end)`, headed by the start, containing exactly one entry for the
period of every date in the range; the last entry — itself in the range,
so its period touches the range — carries a period that every other
in-range date's period equals or precedes, i.e. the last period strictly
before the end. -/
theorem enumerate_periods_amended {p : Nat} {start e : Date}
    (hp1 : 1 ≤ p) (hp2 : p ≤ 4) (hvs : ValidDate start) (hve : ValidDate e)
    (hal : alignedStart p start) (hse : dlt start e) :
    ∃ ds, enumerate_periods p start e = some ds ∧
      ds.head? = some start ∧
      List.Chain' dlt ds ∧
      (∀ x ∈ ds, ValidDate x ∧ dlt x e ∧ toRD start ≤ toRD x) ∧
      (∀ d, ValidDate d → ¬ dlt d start → dlt d e →
        ∃ x ∈ ds, get_period p x = get_period p d) ∧
      List.Pairwise (fun a b => a ≠ b) (ds.map (get_period p)) ∧
      ∃ L, ds.getLast? = some L ∧ ∀ d, ValidDate d → ¬ dlt d start → dlt d e →
        get_period p d = get_period p L ∨
          periodLtOpt (get_period p d) (get_period p L) := by
  interval_cases p
  · obtain ⟨ds, heq, hhd, hch, hmem, hcov, hpw, L, hL, hmax⟩ :=
      enum_final (advanceDate 1) (pidxOf 1) (alignedStart 1)
        (fun d => .week (isoYear d) (isoWeek d)) start e hvs hve hal hse
        (fun c hc hvc => week_adv hc hvc)
        (fun d hd => by
          obtain ⟨a, h1, h2, h3, h4, _, _⟩ := week_align hd
          exact ⟨a, h1, h2, h3, h4⟩)
        (fun a b ha hva hb hvb h => week_inj ha hva hb hvb h)
        (fun a b hva hvb h => week_mono hva hvb h)
        (fun x d hax hvx hvd h => week_key hax hvx hvd h)
        (fun a b ha hva hb hvb h => week_plt ha hva hb hvb h)
    refine ⟨ds, heq, hhd, hch, hmem, ?_, ?_, ?_⟩
    · intro d hvd hds hde
      rw [not_dlt_iff_le hvd hvs] at hds
      obtain ⟨x, hx, hkx⟩ := hcov d hvd hds hde
      refine ⟨x, hx, ?_⟩
      rw [get_period_one, get_period_one]
      exact congrArg some hkx
    · rw [List.pairwise_map]
      refine List.Pairwise.imp ?_ hpw
      intro a b hab hc
      rw [get_period_one, get_period_one] at hc
      exact hab (Option.some.inj hc)
    · refine ⟨L, hL, ?_⟩
      intro d hvd hds hde
      rw [not_dlt_iff_le hvd hvs] at hds
      rcases hmax d hvd hds hde with h | h
      · left
        rw [get_period_one, get_period_one]
        exact congrArg some h
      · right
        rw [get_period_one, get_period_one]
        exact h
  · obtain ⟨ds, heq, hhd, hch, hmem, hcov, hpw, L, hL, hmax⟩ :=
      enum_final (advanceDate 2) (pidxOf 2) (alignedStart 2)
        (fun d => .month d.year d.month) start e hvs hve hal hse
        (fun c hc hvc => month_adv hc hvc)
        (fun d hd => by
          obtain ⟨a, h1, h2, h3, h4, _, _⟩ := month_align hd
          exact ⟨a, h1, h2, h3, h4⟩)
        (fun a b ha hva hb hvb h => month_inj ha hva hb hvb h)
        (fun a b hva hvb h => month_mono hva hvb h)
        (fun x d _ hvx hvd h => month_key hvx hvd h)
        (fun a b _ hva _ hvb h => month_plt hva hvb h)
    refine ⟨ds, heq, hhd, hch, hmem, ?_, ?_, ?_⟩
    · intro d hvd hds hde
      rw [not_dlt_iff_le hvd hvs] at hds
      obtain ⟨x, hx, hkx⟩ := hcov d hvd hds hde
      refine ⟨x, hx, ?_⟩
      rw [get_period_two, get_period_two]
      exact congrArg some hkx
    · rw [List.pairwise_map]
      refine List.Pairwise.imp ?_ hpw
      intro a b hab hc
      rw [get_period_two, get_period_two] at hc
      exact hab (Option.some.inj hc)
    · refine ⟨L, hL, ?_⟩
      intro d hvd hds hde
      rw [not_dlt_iff_le hvd hvs] at hds
      rcases hmax d hvd hds hde with h | h
      · left
        rw [get_period_two, get_period_two]
        exact congrArg some h
      · right
        rw [get_period_two, get_period_two]
        exact h
  · obtain ⟨ds, heq, hhd, hch, hmem, hcov, hpw, L, hL, hmax⟩ :=
      enum_final (advanceDate 3) (pidxOf 3) (alignedStart 3)
        (fun d => .quarter d.year ((d.month - 1) / 3)) start e hvs hve hal hse
        (fun c hc hvc => quarter_adv hc hvc)
        (fun d hd => by
          obtain ⟨a, h1, h2, h3, h4, _, _⟩ := quarter_align hd
          exact ⟨a, h1, h2, h3, h4⟩)
        (fun a b ha hva hb hvb h => quarter_inj ha hva hb hvb h)
        (fun a b hva hvb h => quarter_mono hva hvb h)
        (fun x d _ hvx hvd h => quarter_key hvx hvd h)
        (fun a b _ hva _ hvb h => quarter_plt hva hvb h)
    refine ⟨ds, heq, hhd, hch, hmem, ?_, ?_, ?_⟩
    · intro d hvd hds hde
      rw [not_dlt_iff_le hvd hvs] at hds
      obtain ⟨x, hx, hkx⟩ := hcov d hvd hds hde
      refine ⟨x, hx, ?_⟩
      rw [get_period_three, get_period_three]
      exact congrArg some hkx
    · rw [List.pairwise_map]
      refine List.Pairwise.imp ?_ hpw
      intro a b hab hc
      rw [get_period_three, get_period_three] at hc
      exact hab (Option.some.inj hc)
    · refine ⟨L, hL, ?_⟩
      intro d hvd hds hde
      rw [not_dlt_iff_le hvd hvs] at hds
      rcases hmax d hvd hds hde with h | h
      · left
        rw [get_period_three, get_period_three]
        exact congrArg some h
      · right
        rw [get_period_three, get_period_three]
        exact h
  · obtain ⟨ds, heq, hhd, hch, hmem, hcov, hpw, L, hL, hmax⟩ :=
      enum_final (advanceDate 4) (pidxOf 4) (alignedStart 4)
        (fun d => .year d.year) start e hvs hve hal hse
        (fun c hc hvc => year_adv hc hvc)
        (fun d hd => by
          obtain ⟨a, h1, h2, h3, h4, _⟩ := year_align hd
          exact ⟨a, h1, h2, h3, h4⟩)
        (fun a b ha hva hb hvb h => year_inj ha hva hb hvb h)
        (fun a b hva hvb h => year_mono hva hvb h)
        (fun x d _ _ _ h => year_key h)
        (fun a b _ _ _ _ h => year_plt h)
    refine ⟨ds, heq, hhd, hch, hmem, ?_, ?_, ?_⟩
    · intro d hvd hds hde
      rw [not_dlt_iff_le hvd hvs] at hds
      obtain ⟨x, hx, hkx⟩ := hcov d hvd hds hde
      refine ⟨x, hx, ?_⟩
      rw [get_period_four, get_period_four]
      exact congrArg some hkx
    · rw [List.pairwise_map]
      refine List.Pairwise.imp ?_ hpw
      intro a b hab hc
      rw [get_period_four, get_period_four] at hc
      exact hab (Option.some.inj hc)
    · refine ⟨L, hL, ?_⟩
      intro d hvd hds hde
      rw [not_dlt_iff_le hvd hvs] at hds
      rcases hmax d hvd hds hde with h | h
      · left
        rw [get_period_four, get_period_four]
        exact congrArg some h
      · right
        rw [get_period_four, get_period_four]
        exact h

/-- C4 (witness): the amended theorem applied to quarter granularity from
the aligned start 2024-01-01 to the end 2024-07-05. -/
theorem enumerate_periods_amended_witness :
    (1 ≤ 3 ∧ 3 ≤ 4 ∧ ValidDate ⟨2024, 1, 1⟩ ∧ ValidDate ⟨2024, 7, 5⟩ ∧
      alignedStart 3 ⟨2024, 1, 1⟩ ∧ dlt ⟨2024, 1, 1⟩ ⟨2024, 7, 5⟩) ∧
    (∃ ds, enumerate_periods 3 ⟨2024, 1, 1⟩ ⟨2024, 7, 5⟩ = some ds ∧
      ds.head? = some ⟨2024, 1, 1⟩ ∧
      List.Chain' dlt ds ∧
      (∀ x ∈ ds, ValidDate x ∧ dlt x ⟨2024, 7, 5⟩ ∧ toRD ⟨2024, 1, 1⟩ ≤ toRD x) ∧
      (∀ d, ValidDate d → ¬ dlt d ⟨2024, 1, 1⟩ → dlt d ⟨2024, 7, 5⟩ →
        ∃ x ∈ ds, get_period 3 x = get_period 3 d) ∧
      List.Pairwise (fun a b => a ≠ b) (ds.map (get_period 3)) ∧
      ∃ L, ds.getLast? = some L ∧ ∀ d, ValidDate d → ¬ dlt d ⟨2024, 1, 1⟩ →
        dlt d ⟨2024, 7, 5⟩ →
        get_period 3 d = get_period 3 L ∨
          periodLtOpt (get_period 3 d) (get_period 3 L)) :=
  ⟨⟨by decide, by decide, by decide, by decide, by decide, by decide⟩,
    enumerate_periods_amended (by decide) (by decide) (by decide) (by decide)
      (by decide) (by decide)⟩

/-- C5 (code bug): the week-granularity start normalization
`if weekday: start_date -= timedelta(6 - weekday)` does not produce the
Monday of the start's ISO week.  For the start 2013-01-01 (a Tuesday,
`weekday() = 1`) the code subtracts 5 days and lands on 2012-12-27 — a
Thursday, in the *previous* ISO week — while the Monday of 2013-01-01's ISO
week is 2012-12-31.  Subsequent 7-day steps from there are all Thursdays,
so no enumerated date is a Monday, contradicting the spec. -/
theorem normalizeWeekStart_not_monday :
    weekday ⟨2013, 1, 1⟩ = 1 ∧
    normalizeWeekStart ⟨2013, 1, 1⟩ = ⟨2012, 12, 27⟩ ∧
    weekday ⟨2012, 12, 27⟩ = 3 ∧
    subDays ⟨2013, 1, 1⟩ (weekday ⟨2013, 1, 1⟩) = ⟨2012, 12, 31⟩ ∧
    weekday ⟨2012, 12, 31⟩ = 0 ∧
    (isoYear ⟨2012, 12, 27⟩, isoWeek ⟨2012, 12, 27⟩) ≠
      (isoYear ⟨2013, 1, 1⟩, isoWeek ⟨2013, 1, 1⟩) := by
  decide

/-! ### Aggregator: bucketing records by period

`created.setdefault(get_period(date), []).append(bug)` over Python's
insertion-ordered `dict`, embedded as an association list. -/

/-- `m.setdefault(k, []).append(r)`: append `r` to the entry with key `k`,
creating the entry at the end (insertion order) when absent. -/
def setdefaultAppend {α : Type} (m : List (Option Period × List α))
    (k : Option Period) (r : α) : List (Option Period × List α) :=
  match m with
  | [] => [(k, [r])]
  | (k', rs) :: t =>
    if k' = k then (k', rs ++ [r]) :: t else (k', rs) :: setdefaultAppend t k r

/-- Dictionary lookup with `[]` as default (only used to state theorems). -/
def bucketFind {α : Type} (m : List (Option Period × List α)) (k : Option Period) :
    List α :=
  match m with
  | [] => []
  | (k', rs) :: t => if k' = k then rs else bucketFind t k

/-- The bucketing loop of `main` (both scripts):
`for r in records: buckets.setdefault(get_period(ts(r)), []).append(r)`. -/
def bucket {α : Type} (p : Nat) (ts : α → Date) (records : List α) :
    List (Option Period × List α) :=
  records.foldl (fun m r => setdefaultAppend m (get_period p (ts r)) r) []

theorem setdefaultAppend_nil {α : Type} (k : Option Period) (r : α) :
    setdefaultAppend [] k r = [(k, [r])] := rfl

theorem setdefaultAppend_cons {α : Type} (k0 : Option Period) (rs : List α)
    (t : List (Option Period × List α)) (k : Option Period) (r : α) :
    setdefaultAppend ((k0, rs) :: t) k r =
      if k0 = k then (k0, rs ++ [r]) :: t else (k0, rs) :: setdefaultAppend t k r := rfl

theorem bucketFind_nil {α : Type} (k : Option Period) :
    bucketFind ([] : List (Option Period × List α)) k = [] := rfl

theorem bucketFind_cons {α : Type} (k0 : Option Period) (rs : List α)
    (t : List (Option Period × List α)) (k : Option Period) :
    bucketFind ((k0, rs) :: t) k = if k0 = k then rs else bucketFind t k := rfl

theorem setdefaultAppend_find {α : Type} (m : List (Option Period × List α))
    (k : Option Period) (r : α) (k' : Option Period) :
    bucketFind (setdefaultAppend m k r) k' =
      if k = k' then bucketFind m k' ++ [r] else bucketFind m k' := by
  induction m with
  | nil =>
    rw [setdefaultAppend_nil, bucketFind_cons, bucketFind_nil]
    by_cases h : k = k' <;> simp [h]
  | cons hd t ih =>
    obtain ⟨k0, rs⟩ := hd
    rw [setdefaultAppend_cons]
    by_cases h0 : k0 = k
    · rw [if_pos h0, bucketFind_cons, bucketFind_cons]
      subst h0
      by_cases h1 : k0 = k' <;> simp [h1]
    · rw [if_neg h0, bucketFind_cons, bucketFind_cons, ih]
      by_cases h1 : k0 = k'
      · have h2 : ¬ k = k' := fun hc => h0 (h1.trans hc.symm)
        simp [h1, h2]
      · simp [h1]

theorem setdefaultAppend_key_mem {α : Type} (m : List (Option Period × List α))
    (k : Option Period) (r : α) :
    ∀ x ∈ setdefaultAppend m k r, x.1 ∈ m.map Prod.fst ∨ x.1 = k := by
  induction m with
  | nil =>
    intro x hx
    rw [setdefaultAppend_nil] at hx
    rcases List.mem_singleton.mp hx with h
    right
    rw [h]
  | cons hd t ih =>
    obtain ⟨k0, rs⟩ := hd
    intro x hx
    rw [setdefaultAppend_cons] at hx
    rw [List.map_cons]
    by_cases h0 : k0 = k
    · rw [if_pos h0] at hx
      rcases List.mem_cons.mp hx with h | h
      · left
        rw [h]
        exact List.mem_cons_self _ _
      · left
        exact List.mem_cons_of_mem _ (List.mem_map_of_mem Prod.fst h)
    · rw [if_neg h0] at hx
      rcases List.mem_cons.mp hx with h | h
      · left
        rw [h]
        exact List.mem_cons_self _ _
      · rcases ih x h with h2 | h2
        · exact Or.inl (List.mem_cons_of_mem _ h2)
        · exact Or.inr h2

theorem setdefaultAppend_pairwise {α : Type} (m : List (Option Period × List α))
    (k : Option Period) (r : α)
    (h : List.Pairwise (fun a b => a.1 ≠ b.1) m) :
    List.Pairwise (fun a b => a.1 ≠ b.1) (setdefaultAppend m k r) := by
  induction m with
  | nil => simp [setdefaultAppend_nil]
  | cons hd t ih =>
    obtain ⟨k0, rs⟩ := hd
    rcases List.pairwise_cons.mp h with ⟨hhd, ht⟩
    rw [setdefaultAppend_cons]
    by_cases h0 : k0 = k
    · rw [if_pos h0]
      exact List.pairwise_cons.mpr ⟨hhd, ht⟩
    · rw [if_neg h0]
      refine List.pairwise_cons.mpr ⟨?_, ih ht⟩
      intro x hx
      rcases setdefaultAppend_key_mem t k r x hx with h2 | h2
      · rcases List.mem_map.mp h2 with ⟨y, hy, hxy⟩
        have := hhd y hy
        rw [hxy] at this
        exact this
      · rw [h2]
        exact h0

theorem setdefaultAppend_sum {α : Type} (m : List (Option Period × List α))
    (k : Option Period) (r : α) :
    ((setdefaultAppend m k r).map (fun kv => kv.2.length)).sum =
      (m.map (fun kv => kv.2.length)).sum + 1 := by
  induction m with
  | nil => simp [setdefaultAppend_nil]
  | cons hd t ih =>
    obtain ⟨k0, rs⟩ := hd
    rw [setdefaultAppend_cons]
    by_cases h0 : k0 = k
    · rw [if_pos h0]
      simp
      omega
    · rw [if_neg h0]
      simp at ih ⊢
      omega

theorem bucket_foldl_find {α : Type} (p : Nat) (ts : α → Date) :
    ∀ (rs : List α) (m : List (Option Period × List α)) (k : Option Period),
      bucketFind (rs.foldl (fun m r => setdefaultAppend m (get_period p (ts r)) r) m) k =
        bucketFind m k ++ rs.filter (fun r => get_period p (ts r) = k) := by
  intro rs
  induction rs with
  | nil =>
    intro m k
    simp
  | cons r rs ih =>
    intro m k
    rw [List.foldl_cons, ih, setdefaultAppend_find]
    by_cases h : get_period p (ts r) = k <;> simp [List.filter_cons, h]

theorem bucket_foldl_pairwise {α : Type} (p : Nat) (ts : α → Date) :
    ∀ (rs : List α) (m : List (Option Period × List α)),
      List.Pairwise (fun a b => a.1 ≠ b.1) m →
      List.Pairwise (fun a b => a.1 ≠ b.1)
        (rs.foldl (fun m r => setdefaultAppend m (get_period p (ts r)) r) m) := by
  intro rs
  induction rs with
  | nil =>
    intro m hm
    exact hm
  | cons r rs ih =>
    intro m hm
    rw [List.foldl_cons]
    exact ih _ (setdefaultAppend_pairwise m _ r hm)

theorem bucket_foldl_sum {α : Type} (p : Nat) (ts : α → Date) :
    ∀ (rs : List α) (m : List (Option Period × List α)),
      ((rs.foldl (fun m r => setdefaultAppend m (get_period p (ts r)) r) m).map
        (fun kv => kv.2.length)).sum =
      (m.map (fun kv => kv.2.length)).sum + rs.length := by
  intro rs
  induction rs with
  | nil =>
    intro m
    simp
  | cons r rs ih =>
    intro m
    rw [List.foldl_cons, ih, setdefaultAppend_sum]
    simp
    omega

/-- C9 (confirmed): for every record list and valid granularity, bucketing
by the timestamp's period key is a partition — each bucket holds, in
original input order, exactly the records whose key equals the bucket key
(so each record lands in exactly one bucket, the one of its own key), the
bucket keys are pairwise distinct, and bucket sizes sum to the number of
input records. -/
theorem bucket_partition {α : Type} (p : Nat) (ts : α → Date) (records : List α)
    (hp1 : 1 ≤ p) (hp2 : p ≤ 4) :
    (∀ k, bucketFind (bucket p ts records) k =
      records.filter (fun r => get_period p (ts r) = k)) ∧
    (∀ r ∈ records, r ∈ bucketFind (bucket p ts records) (get_period p (ts r))) ∧
    List.Pairwise (fun a b => a.1 ≠ b.1) (bucket p ts records) ∧
    ((bucket p ts records).map (fun kv => kv.2.length)).sum = records.length := by
  have hfind : ∀ k, bucketFind (bucket p ts records) k =
      records.filter (fun r => get_period p (ts r) = k) := by
    intro k
    unfold bucket
    rw [bucket_foldl_find, bucketFind_nil]
    simp
  refine ⟨hfind, ?_, ?_, ?_⟩
  · intro r hr
    rw [hfind]
    rw [List.mem_filter]
    exact ⟨hr, by simp⟩
  · unfold bucket
    exact bucket_foldl_pairwise p ts records [] List.Pairwise.nil
  · unfold bucket
    rw [bucket_foldl_sum]
    simp

/-- C9 (witness): the partition theorem applied at quarter granularity to
three concrete dates. -/
theorem bucket_partition_witness :
    (1 ≤ 3 ∧ 3 ≤ 4) ∧
    ((∀ k, bucketFind (bucket 3 (fun d : Date => d)
        [⟨2024, 1, 10⟩, ⟨2024, 5, 2⟩, ⟨2024, 2, 2⟩]) k =
      [⟨2024, 1, 10⟩, ⟨2024, 5, 2⟩, ⟨2024, 2, 2⟩].filter
        (fun r : Date => get_period 3 r = k)) ∧
    (∀ r ∈ [(⟨2024, 1, 10⟩ : Date), ⟨2024, 5, 2⟩, ⟨2024, 2, 2⟩],
      r ∈ bucketFind (bucket 3 (fun d : Date => d)
        [⟨2024, 1, 10⟩, ⟨2024, 5, 2⟩, ⟨2024, 2, 2⟩]) (get_period 3 r)) ∧
    List.Pairwise (fun a b => a.1 ≠ b.1)
      (bucket 3 (fun d : Date => d) [⟨2024, 1, 10⟩, ⟨2024, 5, 2⟩, ⟨2024, 2, 2⟩]) ∧
    ((bucket 3 (fun d : Date => d)
        [⟨2024, 1, 10⟩, ⟨2024, 5, 2⟩, ⟨2024, 2, 2⟩]).map
      (fun kv => kv.2.length)).sum = 3) :=
  ⟨by decide,
    bucket_partition 3 (fun d : Date => d)
      [⟨2024, 1, 10⟩, ⟨2024, 5, 2⟩, ⟨2024, 2, 2⟩] (by decide) (by decide)⟩

/-- C8 (counterexample): an invalid granularity selector (here 5) is not a
fatal error at the period functions: `get_period` and `output_period` simply
return Python's `None` value (no exception), and bucketing then files every
record under the single `None` key — silently wrong buckets instead of
failing fast. -/
theorem get_period_invalid_counterexample :
    get_period 5 ⟨2024, 1, 1⟩ = none ∧ output_period 5 ⟨2024, 1, 1⟩ = none ∧
    bucket 5 (fun d : Date => d) [⟨2024, 1, 1⟩, ⟨1999, 6, 6⟩] =
      [(none, [⟨2024, 1, 1⟩, ⟨1999, 6, 6⟩])] := by
  decide

/-- C8 (amended): for every granularity selector outside 1–4, `get_period`
and `output_period` return `None` (a value, not an exception), and
bucketing lumps every record into one `None`-keyed bucket. -/
theorem get_period_invalid_amended {p : Nat} (hp : ¬ (1 ≤ p ∧ p ≤ 4)) :
    (∀ d : Date, get_period p d = none ∧ output_period p d = none) ∧
    (∀ (α : Type) (ts : α → Date) (records : List α), records ≠ [] →
      bucket p ts records = [(none, records)]) := by
  have h1 : p ≠ 1 := by omega
  have h2 : p ≠ 2 := by omega
  have h3 : p ≠ 3 := by omega
  have h4 : p ≠ 4 := by omega
  have hkey : ∀ d, get_period p d = none := by
    intro d
    simp [get_period, h1, h2, h3, h4]
  constructor
  · intro d
    refine ⟨hkey d, ?_⟩
    simp [output_period, h1, h2, h3, h4]
  · intro α ts records hne
    have hfold : ∀ (rs : List α) (acc : List α),
        rs.foldl (fun m r => setdefaultAppend m (get_period p (ts r)) r) [(none, acc)] =
          [(none, acc ++ rs)] := by
      intro rs
      induction rs with
      | nil =>
        intro acc
        simp
      | cons r rs ih =>
        intro acc
        rw [List.foldl_cons, hkey, setdefaultAppend_cons, if_pos rfl, ih]
        simp
    cases records with
    | nil => exact absurd rfl hne
    | cons r rs =>
      unfold bucket
      rw [List.foldl_cons, hkey]
      rw [setdefaultAppend_nil, hfold]
      simp

/-- C8 (witness): the amended theorem applied to the invalid selector 5. -/
theorem get_period_invalid_amended_witness :
    (¬ (1 ≤ 5 ∧ 5 ≤ 4)) ∧
    (get_period 5 ⟨2020, 3, 4⟩ = none ∧ output_period 5 ⟨2020, 3, 4⟩ = none) ∧
    bucket 5 (fun d : Date => d) [⟨2020, 3, 4⟩] = [(none, [⟨2020, 3, 4⟩])] :=
  ⟨by decide,
    (get_period_invalid_amended (p := 5) (by decide)).1 ⟨2020, 3, 4⟩,
    (get_period_invalid_amended (p := 5) (by decide)).2 Date (fun d => d)
      [⟨2020, 3, 4⟩] (by simp)⟩

/-! ### VersionKey: `parse_version`, ordering and `is_compatible`

`addons.py` lines 172–203.  `VERSION_PATTERN` is matched with `re.match`:
anchored at the start but *not* at the end, so the parser below consumes
the longest matching prefix and ignores any trailing characters, exactly
as the regex engine does (the alternations and optional groups of the
pattern have pairwise disjoint first characters — digits, `*`, `.`, `a`/`b`,
`p` — so the regex never needs backtracking beyond dropping a whole
optional group, which the parser mirrors by reverting the group). -/

/-- Python exception outcomes distinguished by the embedding. -/
inductive PyErr where
  | typeError
  | keyError
  | valueError
  | zeroDivisionError
  | statisticsError
deriving DecidableEq, Repr

instance {ε α : Type} [DecidableEq ε] [DecidableEq α] : DecidableEq (Except ε α) :=
  fun a b =>
    match a, b with
    | .error e, .error e' =>
      if h : e = e' then .isTrue (by rw [h])
      else .isFalse (fun hc => h (by injection hc))
    | .ok x, .ok y =>
      if h : x = y then .isTrue (by rw [h])
      else .isFalse (fun hc => h (by injection hc))
    | .error _, .ok _ => .isFalse (fun hc => Except.noConfusion hc)
    | .ok _, .error _ => .isFalse (fun hc => Except.noConfusion hc)

/-- `VERSION_PART_MAX = (1 << 16) - 1`. -/
def VERSION_PART_MAX : Nat := (1 <<< 16) - 1

/-- The `Version` namedtuple of `addons.py`. -/
structure Version where
  major : Nat
  minor : Nat
  micro : Nat
  patch : Nat
  alpha_beta : String
  alpha_beta_ver : Nat
  pre : String
  pre_ver : Nat
deriving DecidableEq, Repr

/-- Result of one `([0-9]+|\*)` group. -/
inductive NumStar where
  | num (n : Nat)
  | star
deriving DecidableEq, Repr

/-- `int()` on a nonempty digit string. -/
def digitsToNat (cs : List Char) : Nat :=
  cs.foldl (fun acc c => 10 * acc + (c.toNat - 48)) 0

/-- One `([0-9]+|\*)` group: greedy digits, or a single `*`; fails when the
next character is neither. -/
def parseComp (cs : List Char) : Option (NumStar × List Char) :=
  match cs with
  | '*' :: rest => some (.star, rest)
  | _ =>
    let ds := cs.takeWhile Char.isDigit
    if ds.isEmpty then none
    else some (.num (digitsToNat ds), cs.dropWhile Char.isDigit)

/-- One optional `\.([0-9]+|\*)` group: the caller keeps the input
unchanged when the group does not participate. -/
def parseDotComp (cs : List Char) : Option (NumStar × List Char) :=
  match cs with
  | '.' :: rest => parseComp rest
  | _ => none

/-- The nested optional `(?:\.C(?:\.C(?:\.C)?)?)?` groups for
minor/micro/patch. -/
def parseTail3 (cs : List Char) :
    Option NumStar × Option NumStar × Option NumStar × List Char :=
  match parseDotComp cs with
  | none => (none, none, none, cs)
  | some (mi, r1) =>
    match parseDotComp r1 with
    | none => (some mi, none, none, r1)
    | some (mc, r2) =>
      match parseDotComp r2 with
      | none => (some mi, some mc, none, r2)
      | some (pa, r3) => (some mi, some mc, some pa, r3)

/-- The `(?:([ab])([0-9]+)?)?` group. -/
def parseAB (cs : List Char) : Option Char × Option Nat × List Char :=
  match cs with
  | c :: rest =>
    if c = 'a' ∨ c = 'b' then
      let ds := rest.takeWhile Char.isDigit
      if ds.isEmpty then (some c, none, rest)
      else (some c, some (digitsToNat ds), rest.dropWhile Char.isDigit)
    else (none, none, cs)
  | [] => (none, none, [])

/-- The `(?:(pre)([0-9])?)?` group — note the single-digit `pre` version. -/
def parsePre (cs : List Char) : Bool × Option Nat × List Char :=
  match cs with
  | 'p' :: 'r' :: 'e' :: rest =>
    match rest with
    | c :: rest2 =>
      if c.isDigit then (true, some (c.toNat - 48), rest2) else (true, none, rest)
    | [] => (true, none, [])
  | _ => (false, none, cs)

/-- `parse_version`: `VERSION_PATTERN.match(version)` (prefix match), then
the group-by-group defaulting of `addons.py` lines 188–197 (`*` ↦
`VERSION_PART_MAX`, missing numeric parts ↦ 0, missing `a`/`b` and `pre`
markers ↦ the `"z"` sentinel).  `None` (with an error log) when the string
has no leading numeric-or-wildcard major component. -/
def parse_version (version : String) : Option Version :=
  match parseComp version.data with
  | none => none
  | some (maj, r0) =>
    let t3 := parseTail3 r0
    let ab2 := parseAB t3.2.2.2
    let pr2 := parsePre ab2.2.2
    some {
      major := match maj with | .star => VERSION_PART_MAX | .num n => n
      minor := match t3.1 with
        | some .star => VERSION_PART_MAX
        | some (.num n) => n
        | none => 0
      micro := match t3.2.1 with
        | some .star => VERSION_PART_MAX
        | some (.num n) => n
        | none => 0
      patch := match t3.2.2.1 with
        | some .star => VERSION_PART_MAX
        | some (.num n) => n
        | none => 0
      alpha_beta := match ab2.1 with | some c => String.mk [c] | none => "z"
      alpha_beta_ver := ab2.2.1.getD 0
      pre := if pr2.1 then "pre" else "z"
      pre_ver := pr2.2.1.getD 0 }

/-- Python string `<` (lexicographic by code point). -/
def charListLtB : List Char → List Char → Bool
  | _, [] => false
  | [], _ :: _ => true
  | a :: as, b :: bs =>
    if a.toNat < b.toNat then true
    else if a = b then charListLtB as bs
    else false

/-- Python `<` on strings. -/
def pyStrLt (a b : String) : Bool :=
  charListLtB a.data b.data

/-- Python tuple `<` on `Version` values: lexicographic over the 8 fields,
integers by `<`, strings by code-point order. -/
def vlt (a b : Version) : Bool :=
  if a.major ≠ b.major then a.major < b.major
  else if a.minor ≠ b.minor then a.minor < b.minor
  else if a.micro ≠ b.micro then a.micro < b.micro
  else if a.patch ≠ b.patch then a.patch < b.patch
  else if a.alpha_beta ≠ b.alpha_beta then pyStrLt a.alpha_beta b.alpha_beta
  else if a.alpha_beta_ver ≠ b.alpha_beta_ver then a.alpha_beta_ver < b.alpha_beta_ver
  else if a.pre ≠ b.pre then pyStrLt a.pre b.pre
  else a.pre_ver < b.pre_ver

/-- Python tuple `<=` on `Version` values. -/
def vle (a b : Version) : Bool :=
  vlt a b || a == b

/-- A compatibility range record (`{"min": str, "max": str}`). -/
structure Compat where
  min : String
  max : String

/-- `is_compatible` (`addons.py` line 200–203):
`parse_version(compat["min"]) <= version and parse_version(compat["max"]) >= version`.
Python 3 raises `TypeError` when comparing `None` with a `Version` tuple,
and `and` short-circuits, so the max bound is parsed only when the min
comparison already yielded `True`. -/
def is_compatible (version : Version) (compat : Compat) : Except PyErr Bool :=
  match parse_version compat.min with
  | none => .error .typeError
  | some vmin =>
    if vle vmin version then
      match parse_version compat.max with
      | none => .error .typeError
      | some vmax => .ok (vle version vmax)
    else .ok false

/-- Modelled from the spec: whether a whole string matches the grammar
`major[.minor[.micro[.patch]]][ab][N][pre[N]]` end to end — the spec's
anchored reading of the version grammar, against which the code's prefix
matching is compared. -/
def matchesVersionGrammarSpec (s : String) : Bool :=
  match parseComp s.data with
  | none => false
  | some (_, r0) =>
    let (_, _, _, r1) := parseTail3 r0
    let (_, _, r2) := parseAB r1
    let (_, _, r3) := parsePre r2
    r3.isEmpty

/-- C6 (counterexample): `"1.2.3.4.5"` does not match the grammar (it has
a trailing `.5` the grammar cannot produce), yet `parse_version` returns
the key built from the prefix `"1.2.3.4"` rather than a parse failure:
`VERSION_PATTERN` is only anchored at the start. -/
theorem parse_version_prefix_counterexample :
    matchesVersionGrammarSpec "1.2.3.4.5" = false ∧
    parse_version "1.2.3.4.5" = some ⟨1, 2, 3, 4, "z", 0, "z", 0⟩ ∧
    parse_version "1.2.3.4.5" ≠ none := by
  refine ⟨?_, ?_, ?_⟩ <;> decide

/-- C6 (amended): `parse_version` is a deterministic total function that
returns a parse failure (`None`) exactly when the input has no leading
numeric-or-wildcard major component; for any other input it returns the
key parsed from the longest matching prefix, silently ignoring trailing
characters (which may differ from a full-string grammar match). -/
theorem parse_version_amended (s : String) :
    (parse_version s).isSome ↔
      (∃ c, s.data.head? = some c ∧ (c.isDigit ∨ c = '*')) := by
  have hmain : (parseComp s.data).isSome ↔
      (∃ c, s.data.head? = some c ∧ (c.isDigit ∨ c = '*')) := by
    cases hs : s.data with
    | nil =>
      show (parseComp []).isSome ↔ _
      simp [parseComp]
    | cons c rest =>
      by_cases hstar : c = '*'
      · subst hstar
        simp [parseComp]
      · have hpc : parseComp (c :: rest) =
            if ((c :: rest).takeWhile Char.isDigit).isEmpty then none
            else some (.num (digitsToNat ((c :: rest).takeWhile Char.isDigit)),
              (c :: rest).dropWhile Char.isDigit) := by
          unfold parseComp
          split
          · rename_i heq
            injection heq with h1 h2
            exact absurd h1 hstar
          · rfl
        rw [hpc]
        by_cases hdig : c.isDigit = true
        · simp [List.takeWhile_cons, hdig, hstar]
        · simp [List.takeWhile_cons, hdig, hstar]
  have hps : (parse_version s).isSome = (parseComp s.data).isSome := by
    unfold parse_version
    cases parseComp s.data with
    | none => rfl
    | some pr =>
      obtain ⟨maj, r0⟩ := pr
      rfl
  rw [show ((parse_version s).isSome ↔ _) =
      ((parse_version s).isSome = true ↔
        (∃ c, s.data.head? = some c ∧ (c.isDigit ∨ c = '*'))) from rfl]
  rw [hps]
  exact hmain

/-- C6 (witness): the amended characterization evaluated at a string with
a digit head (parses) and at one with an alphabetic head (fails). -/
theorem parse_version_amended_witness :
    ((parse_version "1.0").isSome ↔
      (∃ c, ("1.0").data.head? = some c ∧ (c.isDigit ∨ c = '*'))) ∧
    ((parse_version "invalid").isSome ↔
      (∃ c, ("invalid").data.head? = some c ∧ (c.isDigit ∨ c = '*'))) :=
  ⟨parse_version_amended "1.0", parse_version_amended "invalid"⟩

/-- C7 (confirmed): the parsed keys carry the sentinels (`*` ↦ 65535,
missing markers ↦ `"z"`, `pre` marker ↦ `"pre"`), and the tuple order
gives `115.99.0 < 115.* < 116.0` and `128.0a1 < 128.0b1 < 128.0pre1 <
128.0`. -/
theorem version_ordering_facts :
    parse_version "115.*" = some ⟨115, 65535, 0, 0, "z", 0, "z", 0⟩ ∧
    parse_version "115.99.0" = some ⟨115, 99, 0, 0, "z", 0, "z", 0⟩ ∧
    parse_version "116.0" = some ⟨116, 0, 0, 0, "z", 0, "z", 0⟩ ∧
    parse_version "128.0a1" = some ⟨128, 0, 0, 0, "a", 1, "z", 0⟩ ∧
    parse_version "128.0b1" = some ⟨128, 0, 0, 0, "b", 1, "z", 0⟩ ∧
    parse_version "128.0pre1" = some ⟨128, 0, 0, 0, "z", 0, "pre", 1⟩ ∧
    parse_version "128.0" = some ⟨128, 0, 0, 0, "z", 0, "z", 0⟩ ∧
    vlt ⟨115, 99, 0, 0, "z", 0, "z", 0⟩ ⟨115, 65535, 0, 0, "z", 0, "z", 0⟩ = true ∧
    vlt ⟨115, 65535, 0, 0, "z", 0, "z", 0⟩ ⟨116, 0, 0, 0, "z", 0, "z", 0⟩ = true ∧
    vlt ⟨128, 0, 0, 0, "a", 1, "z", 0⟩ ⟨128, 0, 0, 0, "b", 1, "z", 0⟩ = true ∧
    vlt ⟨128, 0, 0, 0, "b", 1, "z", 0⟩ ⟨128, 0, 0, 0, "z", 0, "pre", 1⟩ = true ∧
    vlt ⟨128, 0, 0, 0, "z", 0, "pre", 1⟩ ⟨128, 0, 0, 0, "z", 0, "z", 0⟩ = true := by
  refine ⟨?_, ?_, ?_, ?_, ?_, ?_, ?_, ?_, ?_, ?_, ?_, ?_⟩ <;> decide

/-- C1 (code bug): when either bound of a compatibility range fails to
parse, `is_compatible` does not return False — Python 3 raises
`TypeError: not supported between instances of NoneType and Version` at
`parse_version(compat["min"]) <= version`.  Both the min-side and the
max-side failure are exhibited. -/
theorem is_compatible_parse_failure_raises :
    parse_version "invalid" = none ∧
    (∀ v : Version, is_compatible v ⟨"invalid", "5.0"⟩ = .error .typeError) ∧
    is_compatible ⟨128, 0, 0, 0, "z", 0, "z", 0⟩ ⟨"1.0", "invalid"⟩ =
      .error .typeError := by
  refine ⟨by decide, ?_, by decide⟩
  intro v
  rfl

/-! ### Per-period mean/median statistics

`bugzilla.py` `main` lines 719–729 and `github.py` `main` lines 639–644.
Durations (`timedelta` values) are modelled as rationals. -/

/-- Python `dict[key]`: `KeyError` when the key is absent. -/
def dictIndex {κ ν : Type} [DecidableEq κ] : List (κ × ν) → κ → Except PyErr ν
  | [], _ => .error .keyError
  | (k', v) :: t, k => if k' = k then .ok v else dictIndex t k

/-- `statistics.median`: middle element of the sorted data, or the mean of
the two middle elements; `StatisticsError` on empty data. -/
def median (xs : List ℚ) : Except PyErr ℚ :=
  if xs.length = 0 then .error .statisticsError
  else
    let sorted := xs.insertionSort (· ≤ ·)
    let n := xs.length
    if n % 2 = 1 then .ok (sorted.getD (n / 2) 0)
    else .ok ((sorted.getD (n / 2 - 1) 0 + sorted.getD (n / 2) 0) / 2)

/-- The per-period statistics block of `bugzilla.py` `main` (719–729): the
`created`, `closed` and `closed_deltas` dicts are indexed directly
(`created[adate]` — `KeyError` when the period has no records), then
`mean = sum(closed_deltas[adate], timedelta()) / len(closed_deltas[adate])`
(`ZeroDivisionError` on an empty list) and
`median = statistics.median(closed_deltas[adate])`. -/
def bugzillaPeriodStats (created closed : List (Option Period × List Nat))
    (closed_deltas : List (Option Period × List ℚ)) (adate : Option Period) :
    Except PyErr (Nat × Nat × ℚ × ℚ) := do
  let cr ← dictIndex created adate
  let cl ← dictIndex closed adate
  let ds ← dictIndex closed_deltas adate
  let mean ← if ds.length = 0 then Except.error PyErr.zeroDivisionError
    else Except.ok (ds.sum / (ds.length : ℚ))
  let med ← median ds
  Except.ok (cr.length, cl.length, mean, med)

/-- The `github.py` variant (639–644): the period dicts are pre-seeded with
`[]` for every period, and both statistics are guarded by
`... if issues_closed_deltas[adate] else timedelta()`, so an empty bucket
yields a *zero* duration for both mean and median. -/
def githubMeanMedian (deltas : List ℚ) : Except PyErr (ℚ × ℚ) :=
  if deltas.length = 0 then .ok (0, 0)
  else do
    let med ← median deltas
    .ok (deltas.sum / (deltas.length : ℚ), med)

/-- C2 (code bug): a period bucket with zero eligible records does not get
the claimed "no data" treatment.  `bugzilla.py` raises `KeyError` on the
direct `created[adate]` indexing for a period with no records, and
`github.py` returns `timedelta()` — a zero duration that is
indistinguishable from the legitimate zero statistics of a bucket holding
one zero-length duration. -/
theorem empty_bucket_stats :
    bugzillaPeriodStats [] [] [] (some (.quarter 2020 1)) = .error .keyError ∧
    githubMeanMedian [] = .ok (0, 0) ∧
    githubMeanMedian [0] = .ok (0, 0) := by
  refine ⟨rfl, by decide, ?_⟩
  simp [githubMeanMedian, median, List.insertionSort, List.orderedInsert]
  norm_num [Except.pure]
  rfl

/-! ### RelationRollup: `by_level`

`bugzilla.py` lines 336–351.  The global `seen` set is modelled as the
list of inserted ids (`set.add` = cons; only membership is observed). -/

/-- The slice of a Bugzilla record that `by_level` reads: the relation list
(`items[aid]["duplicates"]`) and the summed numeric field
(`items[aid][key]`, e.g. `votes`). -/
structure Item where
  duplicates : List Nat
  votes : Int
deriving DecidableEq, Repr

/-- Association-list lookup standing for the `items` dict (id → record). -/
def lookupItem : List (Nat × Item) → Nat → Option Item
  | [], _ => none
  | (k, v) :: t, aid => if k = aid then some v else lookupItem t aid

/-- `aid in items`. -/
def containsItem (items : List (Nat × Item)) (aid : Nat) : Bool :=
  (lookupItem items aid).isSome

/-- `items[aid]["duplicates"]` (the id is always a dict key at call sites —
both the initial level and every extension are filtered by `in items`). -/
def dupsOf (items : List (Nat × Item)) (aid : Nat) : List Nat :=
  ((lookupItem items aid).map Item.duplicates).getD []

/-- `items[aid][key]` for the summed field (same unreachable-default note
as `dupsOf`). -/
def votesOf (items : List (Nat × Item)) (aid : Nat) : Int :=
  ((lookupItem items aid).map Item.votes).getD 0

/-- One iteration of the inner `for aid in level` loop of `by_level`:
`seen.add(aid)`, `level_votes.append(items[aid][key])`,
`next_level.extend(cid for cid in items[aid]["duplicates"]
if cid in items and cid not in seen)`. -/
def blStep (items : List (Nat × Item))
    (st : List Nat × List Int × List Nat) (aid : Nat) :
    List Nat × List Int × List Nat :=
  let seen := aid :: st.1
  (seen,
   st.2.1 ++ [votesOf items aid],
   st.2.2 ++ (dupsOf items aid).filter
     (fun cid => containsItem items cid ∧ cid ∉ seen))

/-- One iteration of the outer `while level` loop: processes the whole
level, returning the grown `seen`, the level's votes and the next level. -/
def processLevel (items : List (Nat × Item)) (seen : List Nat)
    (level : List Nat) : List Nat × List Int × List Nat :=
  level.foldl (blStep items) (seen, [], [])

/-- The `while level` loop of `by_level` with explicit fuel; each iteration
either grows `seen` by a fresh index key or is immediately followed by one
that does, so `2·|keys| + 2` fuel always reaches the `level = []` exit
(proved below). -/
def byLevelFuel (items : List (Nat × Item)) :
    Nat → List Nat → List Nat → List (List Int)
  | 0, _, _ => []
  | fuel + 1, seen, level =>
    if level.isEmpty then []
    else
      let st := processLevel items seen level
      st.2.1 :: byLevelFuel items fuel st.1 st.2.2

/-- The keys of the `items` dict. -/
def keysOf (items : List (Nat × Item)) : Finset Nat :=
  (items.map Prod.fst).toFinset

/-- The initial level:
`[aid for aid in root_item["duplicates"] if aid in items]` — note `seen`
starts empty and the root's own id is *not* pre-seeded. -/
def initLevel (root : Item) (items : List (Nat × Item)) : List Nat :=
  root.duplicates.filter (fun aid => containsItem items aid)

/-- `by_level(root_item, items, key)`. -/
def by_level (root : Item) (items : List (Nat × Item)) : List (List Int) :=
  byLevelFuel items (2 * (keysOf items).card + 2) [] (initLevel root items)

theorem blStep_eq (items : List (Nat × Item)) (s : List Nat) (v : List Int)
    (n : List Nat) (aid : Nat) :
    blStep items (s, v, n) aid =
      (aid :: s, v ++ [votesOf items aid],
       n ++ (dupsOf items aid).filter
         (fun cid => containsItem items cid ∧ cid ∉ aid :: s)) := rfl

theorem containsItem_mem_keys {items : List (Nat × Item)} {x : Nat}
    (h : containsItem items x = true) : x ∈ keysOf items := by
  induction items with
  | nil => simp [containsItem, lookupItem] at h
  | cons kv t ih =>
    obtain ⟨k, v⟩ := kv
    unfold containsItem lookupItem at h
    simp [keysOf]
    by_cases hk : k = x
    · exact Or.inl hk.symm
    · rw [if_neg hk] at h
      have := ih h
      simp [keysOf] at this
      exact Or.inr this

theorem blFold_seen (items : List (Nat × Item)) :
    ∀ (level s0 : List Nat) (v0 : List Int) (n0 : List Nat),
      ((level.foldl (blStep items) (s0, v0, n0)).1).toFinset =
        s0.toFinset ∪ level.toFinset := by
  intro level
  induction level with
  | nil =>
    intro s0 v0 n0
    simp
  | cons a l ih =>
    intro s0 v0 n0
    rw [List.foldl_cons, blStep_eq, ih]
    ext x
    simp

theorem blFold_votes (items : List (Nat × Item)) :
    ∀ (level s0 : List Nat) (v0 : List Int) (n0 : List Nat),
      (level.foldl (blStep items) (s0, v0, n0)).2.1 =
        v0 ++ level.map (votesOf items) := by
  intro level
  induction level with
  | nil =>
    intro s0 v0 n0
    simp
  | cons a l ih =>
    intro s0 v0 n0
    rw [List.foldl_cons, blStep_eq, ih]
    simp

theorem blFold_next_mem (items : List (Nat × Item)) :
    ∀ (level s0 : List Nat) (v0 : List Int) (n0 : List Nat),
      ∀ x ∈ (level.foldl (blStep items) (s0, v0, n0)).2.2,
        x ∈ n0 ∨ (containsItem items x = true ∧ x ∉ s0) := by
  intro level
  induction level with
  | nil =>
    intro s0 v0 n0 x hx
    exact Or.inl hx
  | cons a l ih =>
    intro s0 v0 n0 x hx
    rw [List.foldl_cons, blStep_eq] at hx
    rcases ih _ _ _ x hx with h | ⟨h1, h2⟩
    · rcases List.mem_append.mp h with h | h
      · exact Or.inl h
      · have := List.of_mem_filter h
        simp at this
        exact Or.inr ⟨this.1, fun hc => this.2.2 hc⟩
    · refine Or.inr ⟨h1, fun hc => h2 (List.mem_cons_of_mem _ hc)⟩

theorem blFold_next_mono (items : List (Nat × Item)) :
    ∀ (level s0 : List Nat) (v0 : List Int) (n0 : List Nat),
      ∀ x ∈ n0, x ∈ (level.foldl (blStep items) (s0, v0, n0)).2.2 := by
  intro level
  induction level with
  | nil =>
    intro s0 v0 n0 x hx
    exact hx
  | cons a l ih =>
    intro s0 v0 n0 x hx
    rw [List.foldl_cons, blStep_eq]
    exact ih _ _ _ x (List.mem_append_left _ hx)

theorem blFold_seen_mono (items : List (Nat × Item)) :
    ∀ (level s0 : List Nat) (v0 : List Int) (n0 : List Nat),
      ∀ x ∈ s0, x ∈ (level.foldl (blStep items) (s0, v0, n0)).1 := by
  intro level
  induction level with
  | nil =>
    intro s0 v0 n0 x hx
    exact hx
  | cons a l ih =>
    intro s0 v0 n0 x hx
    rw [List.foldl_cons, blStep_eq]
    exact ih _ _ _ x (List.mem_cons_of_mem _ hx)

theorem blFold_closure (items : List (Nat × Item)) :
    ∀ (level s0 : List Nat) (v0 : List Int) (n0 : List Nat),
      ∀ aid ∈ level, ∀ cid ∈ dupsOf items aid, containsItem items cid = true →
        cid ∈ (level.foldl (blStep items) (s0, v0, n0)).1 ∨
        cid ∈ (level.foldl (blStep items) (s0, v0, n0)).2.2 := by
  intro level
  induction level with
  | nil =>
    intro s0 v0 n0 aid h
    simp at h
  | cons a l ih =>
    intro s0 v0 n0 aid haid cid hcid hcont
    rcases List.mem_cons.mp haid with h | h
    · subst h
      by_cases hseen : cid ∈ aid :: s0
      · left
        rw [List.foldl_cons, blStep_eq]
        exact blFold_seen_mono items l _ _ _ cid hseen
      · right
        rw [List.foldl_cons, blStep_eq]
        refine blFold_next_mono items l _ _ _ cid ?_
        refine List.mem_append_right _ ?_
        refine List.mem_filter.mpr ⟨hcid, ?_⟩
        simp [hcont, hseen]
      -- both cases closed above
    · rw [List.foldl_cons, blStep_eq]
      exact ih _ _ _ aid h cid hcid hcont

/-- Termination measure of the `while level` loop: twice the number of index
keys not yet in `seen`, plus one when the current level cannot add any. -/
def blMeasure (items : List (Nat × Item)) (seen level : List Nat) : Nat :=
  2 * ((keysOf items) \ seen.toFinset).card + (if ∀ x ∈ level, x ∈ seen then 1 else 0)

theorem blMeasure_decreases {items : List (Nat × Item)} {seen level : List Nat}
    (hlv : ∀ x ∈ level, containsItem items x = true)
    (hnext : (processLevel items seen level).2.2 ≠ []) :
    blMeasure items (processLevel items seen level).1
      (processLevel items seen level).2.2 < blMeasure items seen level := by
  have hseenfs := blFold_seen items level seen [] []
  by_cases hsub : ∀ x ∈ level, x ∈ seen
  · have hfs : ((processLevel items seen level).1).toFinset = seen.toFinset := by
      unfold processLevel
      rw [hseenfs]
      have : level.toFinset ⊆ seen.toFinset := by
        intro x hx
        exact List.mem_toFinset.mpr (hsub x (List.mem_toFinset.mp hx))
      exact Finset.union_eq_left.mpr this
    obtain ⟨x, hx⟩ : ∃ x, x ∈ (processLevel items seen level).2.2 := by
      cases hn : (processLevel items seen level).2.2 with
      | nil => exact absurd hn hnext
      | cons a t => exact ⟨a, List.mem_cons_self _ _⟩
    have hxs : x ∉ seen := by
      rcases blFold_next_mem items level seen [] [] x hx with h | ⟨_, h⟩
      · simp at h
      · exact h
    have hxs' : x ∉ (processLevel items seen level).1 := by
      intro hc
      have : x ∈ ((processLevel items seen level).1).toFinset := List.mem_toFinset.mpr hc
      rw [hfs] at this
      exact hxs (List.mem_toFinset.mp this)
    have hind : ¬ ∀ y ∈ (processLevel items seen level).2.2,
        y ∈ (processLevel items seen level).1 := fun hc => hxs' (hc x hx)
    unfold blMeasure
    rw [hfs, if_pos hsub, if_neg hind]
    omega
  · push_neg at hsub
    obtain ⟨x, hxl, hxs⟩ := hsub
    have hxkeys : x ∈ keysOf items := containsItem_mem_keys (hlv x hxl)
    have hxfs : x ∈ ((processLevel items seen level).1).toFinset := by
      unfold processLevel
      rw [hseenfs]
      exact Finset.mem_union_right _ (List.mem_toFinset.mpr hxl)
    have hsubset : (keysOf items) \ ((processLevel items seen level).1).toFinset ⊆
        ((keysOf items) \ seen.toFinset).erase x := by
      intro y hy
      rcases Finset.mem_sdiff.mp hy with ⟨hyk, hyn⟩
      refine Finset.mem_erase.mpr ⟨?_, Finset.mem_sdiff.mpr ⟨hyk, ?_⟩⟩
      · intro hc
        rw [hc] at hyn
        exact hyn hxfs
      · intro hc
        have : seen.toFinset ⊆ ((processLevel items seen level).1).toFinset := by
          unfold processLevel
          rw [hseenfs]
          exact Finset.subset_union_left
        exact hyn (this hc)
    have hxmem : x ∈ (keysOf items) \ seen.toFinset :=
      Finset.mem_sdiff.mpr ⟨hxkeys, fun hc => hxs (List.mem_toFinset.mp hc)⟩
    have hcard1 : ((keysOf items) \ ((processLevel items seen level).1).toFinset).card ≤
        (((keysOf items) \ seen.toFinset).erase x).card := Finset.card_le_card hsubset
    have hcard2 : (((keysOf items) \ seen.toFinset).erase x).card =
        ((keysOf items) \ seen.toFinset).card - 1 := Finset.card_erase_of_mem hxmem
    have hpos : 1 ≤ ((keysOf items) \ seen.toFinset).card := Finset.card_pos.mpr ⟨x, hxmem⟩
    have hind : ¬ ∀ y ∈ level, y ∈ seen := by
      intro hc
      exact hxs (hc x hxl)
    unfold blMeasure
    rw [if_neg hind]
    have : (if ∀ y ∈ (processLevel items seen level).2.2,
        y ∈ (processLevel items seen level).1 then 1 else 0) ≤ 1 := by
      split <;> omega
    omega

theorem byLevelFuel_nil (items : List (Nat × Item)) :
    ∀ (f : Nat) (seen : List Nat), byLevelFuel items f seen [] = [] := by
  intro f seen
  cases f with
  | zero => rfl
  | succ g => rfl

theorem byLevelFuel_stable (items : List (Nat × Item)) :
    ∀ (f1 f2 : Nat) (seen level : List Nat),
      (∀ x ∈ level, containsItem items x = true) →
      blMeasure items seen level < f1 → blMeasure items seen level < f2 →
      byLevelFuel items f1 seen level = byLevelFuel items f2 seen level := by
  intro f1
  induction f1 with
  | zero =>
    intro f2 seen level _ h1 _
    omega
  | succ g ih =>
    intro f2 seen level hlv h1 h2
    cases f2 with
    | zero => omega
    | succ h =>
      by_cases hemp : level.isEmpty
      · show (if level.isEmpty then _ else _) = (if level.isEmpty then _ else _)
        rw [if_pos hemp, if_pos hemp]
      · show (if level.isEmpty then _ else _) = (if level.isEmpty then _ else _)
        rw [if_neg hemp, if_neg hemp]
        show (processLevel items seen level).2.1 ::
            byLevelFuel items g (processLevel items seen level).1
              (processLevel items seen level).2.2 =
          (processLevel items seen level).2.1 ::
            byLevelFuel items h (processLevel items seen level).1
              (processLevel items seen level).2.2
        have hnextinv : ∀ x ∈ (processLevel items seen level).2.2,
            containsItem items x = true := by
          intro x hx
          rcases blFold_next_mem items level seen [] [] x hx with hc | ⟨hc, _⟩
          · simp at hc
          · exact hc
        by_cases hnil : (processLevel items seen level).2.2 = []
        · rw [hnil, byLevelFuel_nil, byLevelFuel_nil]
        · have hdec := blMeasure_decreases hlv hnil
          rw [ih h (processLevel items seen level).1 (processLevel items seen level).2.2
            hnextinv (by omega) (by omega)]

/-- The initial level only holds index keys. -/
theorem initLevel_contains (root : Item) (items : List (Nat × Item)) :
    ∀ x ∈ initLevel root items, containsItem items x = true := by
  intro x hx
  have := List.of_mem_filter hx
  simpa using this

theorem by_level_fuel_stable (root : Item) (items : List (Nat × Item)) :
    ∀ fuel, 2 * (keysOf items).card + 2 ≤ fuel →
      byLevelFuel items fuel [] (initLevel root items) = by_level root items := by
  intro fuel hfuel
  unfold by_level
  have hm : blMeasure items [] (initLevel root items) < 2 * (keysOf items).card + 2 := by
    unfold blMeasure
    have hc : ((keysOf items) \ ([] : List Nat).toFinset).card = (keysOf items).card := by
      simp
    rw [hc]
    split <;> omega
  exact byLevelFuel_stable items fuel (2 * (keysOf items).card + 2) [] _
    (initLevel_contains root items) (by omega) hm

/-- Transitive reachability from a level through the `duplicates` relation,
restricted — as the traversal is — to ids present in the index. -/
inductive ReachesFrom (items : List (Nat × Item)) (level : List Nat) : Nat → Prop where
  | base {x : Nat} (h : x ∈ level) : ReachesFrom items level x
  | step {x y : Nat} (hr : ReachesFrom items level x)
      (hc : containsItem items y = true) (hd : y ∈ dupsOf items x) :
      ReachesFrom items level y

theorem reachesFrom_nil {items : List (Nat × Item)} {x : Nat}
    (h : ReachesFrom items [] x) : False := by
  induction h with
  | base h => simp at h
  | step hr hc hd ih => exact ih

/-- BFS completeness of one loop iteration: anything reachable from the
current level is either already in the grown `seen` or reachable from the
next level.  Needs the closure invariant for the incoming `seen`. -/
theorem reach_transfer {items : List (Nat × Item)} {seen level : List Nat}
    (hcl : ∀ y ∈ seen, ∀ c ∈ dupsOf items y, containsItem items c = true →
      c ∈ seen ∨ c ∈ level) :
    ∀ z, ReachesFrom items level z →
      z ∈ (processLevel items seen level).1 ∨
      ReachesFrom items (processLevel items seen level).2.2 z := by
  have hfs := blFold_seen items level seen [] []
  have hmemseen : ∀ w, w ∈ seen ∨ w ∈ level → w ∈ (processLevel items seen level).1 := by
    intro w hw
    have : w ∈ ((processLevel items seen level).1).toFinset := by
      show w ∈ (List.foldl (blStep items) (seen, [], []) level).1.toFinset
      rw [hfs]
      rcases hw with h | h
      · exact Finset.mem_union_left _ (List.mem_toFinset.mpr h)
      · exact Finset.mem_union_right _ (List.mem_toFinset.mpr h)
    exact List.mem_toFinset.mp this
  have hseenchar : ∀ w, w ∈ (processLevel items seen level).1 → w ∈ seen ∨ w ∈ level := by
    intro w hw
    have : w ∈ ((processLevel items seen level).1).toFinset := List.mem_toFinset.mpr hw
    rw [show ((processLevel items seen level).1).toFinset =
      seen.toFinset ∪ level.toFinset from hfs] at this
    rcases Finset.mem_union.mp this with h | h
    · exact Or.inl (List.mem_toFinset.mp h)
    · exact Or.inr (List.mem_toFinset.mp h)
  intro z hz
  induction hz with
  | base h => exact Or.inl (hmemseen _ (Or.inr h))
  | step hr hc hd ih =>
    rename_i x y
    rcases ih with hx | hx
    · rcases hseenchar x hx with hxs | hxl
      · rcases hcl x hxs y hd hc with h | h
        · exact Or.inl (hmemseen _ (Or.inl h))
        · exact Or.inl (hmemseen _ (Or.inr h))
      · rcases blFold_closure items level seen [] [] x hxl y hd hc with h | h
        · exact Or.inl h
        · exact Or.inr (ReachesFrom.base h)
    · exact Or.inr (ReachesFrom.step hx hc hd)

/-- BFS completeness of the whole loop: a record reachable from the level
and not yet seen has its metric summed into some level of the output. -/
theorem byLevelFuel_reach (items : List (Nat × Item)) :
    ∀ (fuel : Nat) (seen level : List Nat),
      (∀ x ∈ level, containsItem items x = true) →
      (∀ y ∈ seen, ∀ c ∈ dupsOf items y, containsItem items c = true →
        c ∈ seen ∨ c ∈ level) →
      blMeasure items seen level < fuel →
      ∀ x, ReachesFrom items level x → x ∉ seen →
        votesOf items x ∈ (byLevelFuel items fuel seen level).flatten := by
  intro fuel
  induction fuel with
  | zero =>
    intro seen level _ _ h1
    omega
  | succ g ih =>
    intro seen level hlv hcl hm x hx hxs
    by_cases hemp : level.isEmpty
    · have : level = [] := List.isEmpty_iff.mp hemp
      rw [this] at hx
      exact absurd hx (fun h => reachesFrom_nil h)
    · simp only [byLevelFuel]
      rw [if_neg hemp]
      have hvotes : (processLevel items seen level).2.1 = level.map (votesOf items) := by
        show (List.foldl (blStep items) (seen, [], []) level).2.1 = _
        rw [blFold_votes]
        simp
      have hfs := blFold_seen items level seen [] []
      have hseenchar : ∀ w, w ∈ (processLevel items seen level).1 →
          w ∈ seen ∨ w ∈ level := by
        intro w hw
        have : w ∈ ((processLevel items seen level).1).toFinset := List.mem_toFinset.mpr hw
        rw [show ((processLevel items seen level).1).toFinset =
          seen.toFinset ∪ level.toFinset from hfs] at this
        rcases Finset.mem_union.mp this with h | h
        · exact Or.inl (List.mem_toFinset.mp h)
        · exact Or.inr (List.mem_toFinset.mp h)
      have hlevel_case : x ∈ level →
          votesOf items x ∈ ((processLevel items seen level).2.1 ::
            byLevelFuel items g (processLevel items seen level).1
              (processLevel items seen level).2.2).flatten := by
        intro hxl
        rw [List.flatten_cons]
        refine List.mem_append_left _ ?_
        rw [hvotes]
        exact List.mem_map_of_mem (votesOf items) hxl
      rcases reach_transfer hcl x hx with h | h
      · rcases hseenchar x h with h2 | h2
        · exact absurd h2 hxs
        · exact hlevel_case h2
      · by_cases hxin : x ∈ (processLevel items seen level).1
        · rcases hseenchar x hxin with h2 | h2
          · exact absurd h2 hxs
          · exact hlevel_case h2
        · have hnextinv : ∀ z ∈ (processLevel items seen level).2.2,
              containsItem items z = true := by
            intro z hz
            rcases blFold_next_mem items level seen [] [] z hz with hc | ⟨hc, _⟩
            · simp at hc
            · exact hc
          have hclosure : ∀ y ∈ (processLevel items seen level).1,
              ∀ c ∈ dupsOf items y, containsItem items c = true →
                c ∈ (processLevel items seen level).1 ∨
                c ∈ (processLevel items seen level).2.2 := by
            intro y hy c hc hcont
            rcases hseenchar y hy with h2 | h2
            · rcases hcl y h2 c hc hcont with h3 | h3
              · left
                have : c ∈ ((processLevel items seen level).1).toFinset := by
                  rw [show ((processLevel items seen level).1).toFinset =
                    seen.toFinset ∪ level.toFinset from hfs]
                  exact Finset.mem_union_left _ (List.mem_toFinset.mpr h3)
                exact List.mem_toFinset.mp this
              · left
                have : c ∈ ((processLevel items seen level).1).toFinset := by
                  rw [show ((processLevel items seen level).1).toFinset =
                    seen.toFinset ∪ level.toFinset from hfs]
                  exact Finset.mem_union_right _ (List.mem_toFinset.mpr h3)
                exact List.mem_toFinset.mp this
            · exact blFold_closure items level seen [] [] y h2 c hc hcont
          by_cases hnil : (processLevel items seen level).2.2 = []
          · rw [hnil] at h
            exact absurd h (fun hh => reachesFrom_nil hh)
          · have hdec := blMeasure_decreases hlv hnil
            have := ih (processLevel items seen level).1
              (processLevel items seen level).2.2 hnextinv hclosure (by omega) x h hxin
            rw [List.flatten_cons]
            exact List.mem_append_right _ this

/-- C10 (confirmed): the root's own id is never pre-seeded into `seen`
(the traversal starts with `seen = set()` and only the root's direct
duplicates as level 0), so when any record reachable from the root lists
the root's own id — and the root is itself in the index — the root's own
metric value is summed into the level at which it is first reached. -/
theorem by_level_root_counted {root : Item} {items : List (Nat × Item)}
    {rootId : Nat} {rr : Item}
    (hlook : lookupItem items rootId = some rr)
    (hreach : ReachesFrom items (initLevel root items) rootId) :
    rr.votes ∈ (by_level root items).flatten := by
  have hm : blMeasure items [] (initLevel root items) <
      2 * (keysOf items).card + 2 := by
    unfold blMeasure
    have hc : ((keysOf items) \ ([] : List Nat).toFinset).card = (keysOf items).card := by
      simp
    rw [hc]
    split <;> omega
  have := byLevelFuel_reach items (2 * (keysOf items).card + 2) [] (initLevel root items)
    (initLevel_contains root items) (by intro y hy; simp at hy) hm rootId hreach
    (by simp)
  have hv : votesOf items rootId = rr.votes := by
    unfold votesOf
    rw [hlook]
    rfl
  rw [hv] at this
  exact this

/-- C10 (witness): index `{0 ↦ (duplicates [1], votes 5), 1 ↦ ([0], 7)}`
with root id 0: record 1 is the root's direct duplicate and lists the root
back; the root's own votes value 5 appears in the rollup output. -/
theorem by_level_root_counted_witness :
    lookupItem [(0, ⟨[1], 5⟩), (1, ⟨[0], 7⟩)] 0 = some ⟨[1], 5⟩ ∧
    (5 : Int) ∈ (by_level ⟨[1], 5⟩ [(0, ⟨[1], 5⟩), (1, ⟨[0], 7⟩)]).flatten :=
  ⟨by decide,
    @by_level_root_counted ⟨[1], 5⟩ [(0, ⟨[1], 5⟩), (1, ⟨[0], 7⟩)] 0 ⟨[1], 5⟩ (by decide)
      (ReachesFrom.step (x := 1) (ReachesFrom.base (by decide)) (by decide) (by decide))⟩

/-- C3 (counterexample): record 3 is reachable from the root by two
different paths of equal length (via records 1 and 2); the `seen` filter is
only applied when *extending* the next level, and both parents queue 3
before either queues it into `seen`, so 3's metric (30) is counted twice
in level 1 — refuting "counts each reachable record exactly once". -/
theorem by_level_double_count :
    by_level ⟨[1, 2], 0⟩ [(1, ⟨[3], 10⟩), (2, ⟨[3], 20⟩), (3, ⟨[], 30⟩)] =
      [[10, 20], [30, 30]] ∧
    ((by_level ⟨[1, 2], 0⟩
        [(1, ⟨[3], 10⟩), (2, ⟨[3], 20⟩), (3, ⟨[], 30⟩)]).flatten.count 30) = 2 := by
  refine ⟨by decide, by decide⟩

/-- C3 (amended): the level-ordered rollup terminates even on cyclic
relation graphs — the output is stable for any fuel past `2·|index| + 2`
loop iterations; it silently drops ids absent from the index (appending a
dangling id to the root's relation list leaves the output unchanged, and
every queued id passes the same `cid in items` filter); and for a root
with relation cycle A → B → A it visits A and B exactly once each.
However, a record reachable by two paths of equal length is counted once
per path (see the counterexample), so only records first reached at
*distinct* BFS depths are counted once. -/
theorem by_level_amended (root : Item) (items : List (Nat × Item)) :
    (∀ fuel, 2 * (keysOf items).card + 2 ≤ fuel →
      byLevelFuel items fuel [] (initLevel root items) = by_level root items) ∧
    (∀ j, containsItem items j = false →
      by_level ⟨root.duplicates ++ [j], root.votes⟩ items = by_level root items) ∧
    (∀ vR vA vB : Int,
      by_level ⟨[1], vR⟩ [(1, ⟨[2], vA⟩), (2, ⟨[1], vB⟩)] = [[vA], [vB]]) := by
  refine ⟨by_level_fuel_stable root items, ?_, ?_⟩
  · intro j hj
    unfold by_level
    have hinit : initLevel ⟨root.duplicates ++ [j], root.votes⟩ items =
        initLevel root items := by
      unfold initLevel
      rw [List.filter_append]
      simp [hj]
    rw [hinit]
  · intro vR vA vB
    rfl

/-- C3 (witness): the amended theorem applied to the two-node cycle; the
stability conjunct is checked at fuel 7, the dangling conjunct with the
absent id 99. -/
theorem by_level_amended_witness :
    ((∀ fuel, 2 * (keysOf [(1, (⟨[2], 3⟩ : Item)), (2, ⟨[1], 4⟩)]).card + 2 ≤ fuel →
      byLevelFuel [(1, (⟨[2], 3⟩ : Item)), (2, ⟨[1], 4⟩)] fuel []
        (initLevel ⟨[1], 9⟩ [(1, ⟨[2], 3⟩), (2, ⟨[1], 4⟩)]) =
      by_level ⟨[1], 9⟩ [(1, ⟨[2], 3⟩), (2, ⟨[1], 4⟩)]) ∧
    (∀ j, containsItem [(1, (⟨[2], 3⟩ : Item)), (2, ⟨[1], 4⟩)] j = false →
      by_level ⟨[1] ++ [j], 9⟩ [(1, ⟨[2], 3⟩), (2, ⟨[1], 4⟩)] =
      by_level ⟨[1], 9⟩ [(1, ⟨[2], 3⟩), (2, ⟨[1], 4⟩)]) ∧
    (∀ vR vA vB : Int,
      by_level ⟨[1], vR⟩ [(1, ⟨[2], vA⟩), (2, ⟨[1], vB⟩)] = [[vA], [vB]])) ∧
    by_level ⟨[1], 9⟩ [(1, ⟨[2], 3⟩), (2, ⟨[1], 4⟩)] = [[3], [4]] ∧
    containsItem [(1, (⟨[2], 3⟩ : Item)), (2, ⟨[1], 4⟩)] 99 = false :=
  ⟨by_level_amended ⟨[1], 9⟩ [(1, ⟨[2], 3⟩), (2, ⟨[1], 4⟩)], by decide, by decide⟩

end TBMetrics
